import Mathlib

/-!
Verification of the encode/decode engine of the ninja-extension popup
(src/ninja-extension/src/popup/pages/encoderDecoderPanel.tsx).

JavaScript strings are modelled as lists of UTF-16 code units
(natural numbers below 0x10000); byte buffers as lists of naturals
below 256.  Operations that may throw are modelled with Option,
where none stands for a thrown exception.
-/

namespace NinjaCodec

/-- A JavaScript string: a sequence of UTF-16 code units. -/
abbrev Text := List Nat

/-- A byte buffer (Uint8Array): a sequence of bytes. -/
abbrev Bytes := List Nat

/- ===== character classes ===== -/

/-- ASCII whitespace (the set stripped by the forgiving-base64 algorithm
behind atob): TAB, LF, FF, CR, SPACE. -/
def isAsciiWs (c : Nat) : Bool :=
  c = 0x09 || c = 0x0A || c = 0x0C || c = 0x0D || c = 0x20

/-- JavaScript whitespace: the set matched by the regex class backslash-s
and removed by String.prototype.trim (WhiteSpace plus LineTerminator). -/
def isJsWs (c : Nat) : Bool :=
  c = 0x09 || c = 0x0A || c = 0x0B || c = 0x0C || c = 0x0D || c = 0x20 ||
  c = 0xA0 || c = 0x1680 || (0x2000 ≤ c && c ≤ 0x200A) || c = 0x2028 ||
  c = 0x2029 || c = 0x202F || c = 0x205F || c = 0x3000 || c = 0xFEFF

/-- ASCII decimal digit. -/
def isDigitCh (c : Nat) : Bool := 48 ≤ c && c ≤ 57

/-- ASCII letter, upper or lower case. -/
def isAsciiLetter (c : Nat) : Bool := (65 ≤ c && c ≤ 90) || (97 ≤ c && c ≤ 122)

/-- Value of a hexadecimal digit (0-9, a-f, A-F), none otherwise. -/
def hexVal (c : Nat) : Option Nat :=
  if 48 ≤ c ∧ c ≤ 57 then some (c - 48)
  else if 97 ≤ c ∧ c ≤ 102 then some (c - 87)
  else if 65 ≤ c ∧ c ≤ 70 then some (c - 55)
  else none

/-- Hexadecimal digit test, the regex class 0-9a-fA-F. -/
def isHexDigit (c : Nat) : Bool := (hexVal c).isSome

/-- Lower-case hexadecimal digit of a value below 16,
as produced by Number.prototype.toString(16). -/
def hexDigLower (v : Nat) : Nat := if v < 10 then 48 + v else 87 + v

/-- Upper-case hexadecimal digit of a value below 16,
as produced by the percent-encoding of encodeURIComponent. -/
def hexDigUpper (v : Nat) : Nat := if v < 10 then 48 + v else 55 + v

/- ===== string utilities ===== -/

/-- String.prototype.trim: drop JavaScript whitespace from both ends. -/
def trim (s : Text) : Text :=
  ((s.dropWhile isJsWs).reverse.dropWhile isJsWs).reverse

/-- The global regex replace of one-or-more-whitespace by the empty string,
as in b64.replace of the whitespace class in fromBase64 and hexDecodeToU8:
removes every whitespace character. -/
def stripWs (s : Text) : Text := s.filter (fun c => !isJsWs c)

/-- Accumulator loop for splitWs: current token is held reversed, the
flag records whether the previous character was whitespace. -/
def splitWsAux : Text → Text → Bool → List Text
  | [], cur, _ => [cur.reverse]
  | c :: r, cur, inRun =>
    if isJsWs c then
      if inRun then splitWsAux r cur true
      else cur.reverse :: splitWsAux r [] true
    else splitWsAux r (c :: cur) false

/-- String.prototype.split on the regex one-or-more-whitespace:
tokens between maximal whitespace runs, with an empty leading or
trailing token when the string starts or ends with whitespace. -/
def splitWs (s : Text) : List Text := splitWsAux s [] false

/-- Concatenation of the images of a function over a list
(the join of Array.prototype.map results with an empty separator). -/
def mapConcat (f : Nat → List Nat) : List Nat → List Nat
  | [] => []
  | c :: r => f c ++ mapConcat f r

/-- Array.prototype.join with a single-space separator. -/
def joinSp : List Text → Text
  | [] => []
  | [t] => t
  | t :: r => t ++ [0x20] ++ joinSp r

/- ===== base64 (btoa / atob) ===== -/

/-- Character of a base64 sextet value (standard alphabet). -/
def b64Alpha (i : Nat) : Nat :=
  if i < 26 then 65 + i
  else if i < 52 then 97 + (i - 26)
  else if i < 62 then 48 + (i - 52)
  else if i = 62 then 43
  else 47

/-- Sextet value of a base64 alphabet character, none for characters
outside the standard alphabet. -/
def b64Idx (c : Nat) : Option Nat :=
  if 65 ≤ c ∧ c ≤ 90 then some (c - 65)
  else if 97 ≤ c ∧ c ≤ 122 then some (26 + (c - 97))
  else if 48 ≤ c ∧ c ≤ 57 then some (52 + (c - 48))
  else if c = 43 then some 62
  else if c = 47 then some 63
  else none

/-- Body of btoa: encode bytes in groups of three into four base64
characters, padding the final group with the equals sign (0x3D). -/
def toBase64Loop : Bytes → Text
  | [] => []
  | [a] => [b64Alpha (a / 4), b64Alpha (a % 4 * 16), 61, 61]
  | [a, b] => [b64Alpha (a / 4), b64Alpha (a % 4 * 16 + b / 16), b64Alpha (b % 16 * 4), 61]
  | a :: b :: c :: r =>
    b64Alpha (a / 4) :: b64Alpha (a % 4 * 16 + b / 16) ::
    b64Alpha (b % 16 * 4 + c / 64) :: b64Alpha (c % 64) :: toBase64Loop r

/-- toBase64 of the source: build a binary string from the bytes and
apply btoa. -/
def toBase64 (u8 : Bytes) : Text := toBase64Loop u8

/-- Remove up to two trailing padding characters (0x3D), as the
forgiving-base64 algorithm does when the length is a multiple of four. -/
def stripPad (s : Text) : Text :=
  match s.reverse with
  | c1 :: c2 :: r =>
    if c1 = 61 then (if c2 = 61 then r.reverse else (c2 :: r).reverse) else s
  | [c1] => if c1 = 61 then [] else s
  | [] => s

/-- Map every character to its sextet value; none if any character is
outside the base64 alphabet. -/
def sextetsOf : Text → Option (List Nat)
  | [] => some []
  | c :: r =>
    match b64Idx c, sextetsOf r with
    | some i, some is => some (i :: is)
    | _, _ => none

/-- Reassemble bytes from sextet values: full groups of four give three
bytes; a trailing group of two or three gives one or two bytes with the
excess bits discarded (forgiving-base64). -/
def quanta : List Nat → Bytes
  | [a, b] => [a * 4 + b / 16]
  | [a, b, c] => [a * 4 + b / 16, b % 16 * 16 + c / 4]
  | a :: b :: c :: d :: r =>
    (a * 4 + b / 16) :: (b % 16 * 16 + c / 4) :: (c % 4 * 64 + d) :: quanta r
  | _ => []

/-- atob: the forgiving-base64 decode.  Remove ASCII whitespace; when the
length is then a multiple of four remove up to two trailing padding
characters; fail when the length leaves remainder one or any character
falls outside the alphabet. -/
def atobPad (d : Text) : Text := if d.length % 4 = 0 then stripPad d else d

/-- atob continued: fail when the cleaned length leaves remainder one or
a character falls outside the alphabet, else collect the bytes. -/
def atobDecode (s : Text) : Option Bytes :=
  if (atobPad (s.filter (fun c => !isAsciiWs c))).length % 4 = 1 then none
  else
    match sextetsOf (atobPad (s.filter (fun c => !isAsciiWs c))) with
    | some is => some (quanta is)
    | none => none

/-- fromBase64 of the source: strip all whitespace globally, then atob,
collecting the decoded binary string into bytes. -/
def fromBase64 (b64 : Text) : Option Bytes := atobDecode (stripWs b64)

/-- toBase64Url of the source: replace plus by hyphen and slash by
underscore, then strip every trailing padding character. -/
def toBase64Url (b64 : Text) : Text :=
  ((b64.map (fun c => if c = 43 then 45 else c)).map
    (fun c => if c = 47 then 95 else c)).reverse.dropWhile (fun c => c = 61) |>.reverse

/-- fromBase64Url of the source, first stage: replace hyphen by plus and
underscore by slash. -/
def b64urlMapped (b64url : Text) : Text :=
  (b64url.map (fun c => if c = 45 then 43 else c)).map (fun c => if c = 95 then 47 else c)

/-- fromBase64Url continued: append padding until the length is a
multiple of four (the length is measured before any whitespace
stripping), then fromBase64. -/
def fromBase64Url (b64url : Text) : Option Bytes :=
  fromBase64 (b64urlMapped b64url ++
    List.replicate ((4 - (b64urlMapped b64url).length % 4) % 4) 61)

/- ===== UTF-8 (TextEncoder / TextDecoder) ===== -/

/-- UTF-8 bytes of a single Unicode scalar value. -/
def encCp (cp : Nat) : Bytes :=
  if cp < 0x80 then [cp]
  else if cp < 0x800 then [0xC0 + cp / 64, 0x80 + cp % 64]
  else if cp < 0x10000 then [0xE0 + cp / 4096, 0x80 + cp / 64 % 64, 0x80 + cp % 64]
  else [0xF0 + cp / 262144, 0x80 + cp / 4096 % 64, 0x80 + cp / 64 % 64, 0x80 + cp % 64]

/-- TextEncoder.encode: UTF-8 encode a code-unit sequence, combining
well-paired surrogates and replacing lone surrogates with U+FFFD. -/
def utf8Enc : Text → Bytes
  | [] => []
  | [c] =>
    if c < 0xD800 ∨ 0xE000 ≤ c then encCp c else encCp 0xFFFD
  | c :: d :: r =>
    if c < 0xD800 ∨ 0xE000 ≤ c then encCp c ++ utf8Enc (d :: r)
    else if c < 0xDC00 ∧ 0xDC00 ≤ d ∧ d < 0xE000 then
      encCp (0x10000 + (c - 0xD800) * 0x400 + (d - 0xDC00)) ++ utf8Enc r
    else encCp 0xFFFD ++ utf8Enc (d :: r)

/-- UTF-16 code units of a Unicode scalar value: the value itself in the
basic plane, a surrogate pair above it. -/
def cuOfCp (cp : Nat) : Text :=
  if cp < 0x10000 then [cp]
  else [0xD800 + (cp - 0x10000) / 0x400, 0xDC00 + (cp - 0x10000) % 0x400]

/-- Continuation byte test: 0x80 to 0xBF. -/
def isCont (b : Nat) : Bool := 0x80 ≤ b && b ≤ 0xBF

/-- State of the streaming WHATWG UTF-8 decoder: number of continuation
bytes still needed, the partial code point, and the admissible range of
the next byte. -/
structure U8St where
  needed : Nat
  val : Nat
  lo : Nat
  hi : Nat
deriving DecidableEq, Repr

/-- Process one byte from the initial decoder state: an ASCII byte is
emitted, a valid lead byte opens a multi-byte sequence, anything else
yields a replacement character. -/
def u8Init (b : Nat) : Text × U8St :=
  if b < 0x80 then ([b], ⟨0, 0, 0x80, 0xBF⟩)
  else if b < 0xC2 then ([0xFFFD], ⟨0, 0, 0x80, 0xBF⟩)
  else if b ≤ 0xDF then ([], ⟨1, b - 0xC0, 0x80, 0xBF⟩)
  else if b ≤ 0xEF then
    ([], ⟨2, b - 0xE0, if b = 0xE0 then 0xA0 else 0x80, if b = 0xED then 0x9F else 0xBF⟩)
  else if b ≤ 0xF4 then
    ([], ⟨3, b - 0xF0, if b = 0xF0 then 0x90 else 0x80, if b = 0xF4 then 0x8F else 0xBF⟩)
  else ([0xFFFD], ⟨0, 0, 0x80, 0xBF⟩)

/-- One step of the streaming UTF-8 decoder.  An out-of-range byte in the
middle of a sequence emits a replacement character and is reprocessed as
a fresh byte, as the WHATWG decoder prescribes. -/
def u8Step (st : U8St) (b : Nat) : Text × U8St :=
  if st.needed = 0 then u8Init b
  else if st.lo ≤ b ∧ b ≤ st.hi then
    let v := st.val * 64 + (b - 0x80)
    if st.needed = 1 then (cuOfCp v, ⟨0, 0, 0x80, 0xBF⟩)
    else ([], ⟨st.needed - 1, v, 0x80, 0xBF⟩)
  else
    let (o, st2) := u8Init b
    (0xFFFD :: o, st2)

/-- Run the streaming decoder over a byte list; a dangling incomplete
sequence at the end of input yields one replacement character. -/
def u8Run (st : U8St) : Bytes → Text
  | [] => if st.needed = 0 then [] else [0xFFFD]
  | b :: r =>
    let p := u8Step st b
    p.1 ++ u8Run p.2 r

/-- The initial (and resting) state of the streaming decoder. -/
def u8St0 : U8St := ⟨0, 0, 0x80, 0xBF⟩

/-- TextDecoder.decode with the default non-fatal UTF-8 decoder: invalid
sequences are replaced by U+FFFD and decoding never fails (the WHATWG
decoder with error mode replacement). -/
def utf8DecR (bs : Bytes) : Text := u8Run u8St0 bs

/-- Strict UTF-8 validity of a byte sequence (no replacement allowed):
true exactly when the bytes are a well-formed UTF-8 encoding. -/
def utf8Valid : Bytes → Bool
  | [] => true
  | b :: r =>
    if b < 0x80 then utf8Valid r
    else if b < 0xC2 then false
    else if b < 0xE0 then
      match r with
      | b2 :: r2 => isCont b2 && utf8Valid r2
      | [] => false
    else if b < 0xF0 then
      match r with
      | b2 :: b3 :: r3 =>
        (if b = 0xE0 then 0xA0 ≤ b2 && b2 ≤ 0xBF
         else if b = 0xED then 0x80 ≤ b2 && b2 ≤ 0x9F
         else isCont b2) && isCont b3 && utf8Valid r3
      | _ => false
    else if b < 0xF5 then
      match r with
      | b2 :: b3 :: b4 :: r4 =>
        (if b = 0xF0 then 0x90 ≤ b2 && b2 ≤ 0xBF
         else if b = 0xF4 then 0x80 ≤ b2 && b2 ≤ 0x8F
         else isCont b2) && isCont b3 && isCont b4 && utf8Valid r4
      | _ => false
    else false

/-- Unicode scalar values of a code-unit sequence: none when the sequence
contains a lone surrogate or a unit outside the UTF-16 range.  A some
result means the string is well-formed UTF-16. -/
def scalars : Text → Option (List Nat)
  | [] => some []
  | [c] => if c < 0xD800 ∨ (0xE000 ≤ c ∧ c < 0x10000) then some [c] else none
  | c :: d :: r =>
    if c < 0xD800 ∨ (0xE000 ≤ c ∧ c < 0x10000) then
      (scalars (d :: r)).map (fun l => c :: l)
    else if c < 0xDC00 ∧ 0xDC00 ≤ d ∧ d < 0xE000 then
      (scalars r).map (fun l => (0x10000 + (c - 0xD800) * 0x400 + (d - 0xDC00)) :: l)
    else none

/-- Well-formed UTF-16: every surrogate is part of a proper pair and
every unit is a genuine UTF-16 code unit. -/
def wfStr (s : Text) : Bool := (scalars s).isSome

/-- Code points of a JavaScript string, as its iterator yields them
(Array.from): well-paired surrogates combine, a lone surrogate yields
its own value. -/
def codePoints : Text → List Nat
  | [] => []
  | [c] => [c]
  | c :: d :: r =>
    if 0xD800 ≤ c ∧ c < 0xDC00 ∧ 0xDC00 ≤ d ∧ d < 0xE000 then
      (0x10000 + (c - 0xD800) * 0x400 + (d - 0xDC00)) :: codePoints r
    else c :: codePoints (d :: r)

/- ===== URL percent-encoding ===== -/

/-- The characters encodeURIComponent leaves unescaped:
letters, digits, and hyphen underscore dot bang tilde star quote parens. -/
def uriUnreserved (c : Nat) : Bool :=
  isAsciiLetter c || isDigitCh c || c = 45 || c = 95 || c = 46 ||
  c = 33 || c = 126 || c = 42 || c = 39 || c = 40 || c = 41

/-- Percent-escapes of the UTF-8 bytes of a scalar value, upper-case hex. -/
def pctUtf8 (cp : Nat) : Text :=
  mapConcat (fun b => [37, hexDigUpper (b / 16), hexDigUpper (b % 16)]) (encCp cp)

/-- encodeURIComponent: unreserved code units pass, everything else is
percent-escaped as UTF-8; a lone surrogate raises URIError (none). -/
def encURIComp : Text → Option Text
  | [] => some []
  | [c] =>
    if uriUnreserved c then some [c]
    else if c < 0xD800 ∨ 0xE000 ≤ c then some (pctUtf8 c)
    else none
  | c :: d :: r =>
    if uriUnreserved c then (encURIComp (d :: r)).map (fun t => c :: t)
    else if c < 0xD800 ∨ 0xE000 ≤ c then (encURIComp (d :: r)).map (fun t => pctUtf8 c ++ t)
    else if c < 0xDC00 then
      if 0xDC00 ≤ d ∧ d < 0xE000 then
        (encURIComp r).map
          (fun t => pctUtf8 (0x10000 + (c - 0xD800) * 0x400 + (d - 0xDC00)) ++ t)
      else none
    else none

/-- One strict UTF-8 byte step for the ECMAScript Decode algorithm:
none models URIError (invalid lead byte, out-of-window continuation);
the windows enforce shortest form and exclude surrogates. -/
def uriByte (u : U8St) (B : Nat) : Option (Text × U8St) :=
  if u.needed = 0 then
    if B < 0x80 then some ([B], u8St0)
    else if 0xC2 ≤ B ∧ B ≤ 0xDF then some ([], ⟨1, B - 0xC0, 0x80, 0xBF⟩)
    else if 0xE0 ≤ B ∧ B ≤ 0xEF then
      some ([], ⟨2, B - 0xE0, if B = 0xE0 then 0xA0 else 0x80,
        if B = 0xED then 0x9F else 0xBF⟩)
    else if 0xF0 ≤ B ∧ B ≤ 0xF4 then
      some ([], ⟨3, B - 0xF0, if B = 0xF0 then 0x90 else 0x80,
        if B = 0xF4 then 0x8F else 0xBF⟩)
    else none
  else if u.lo ≤ B ∧ B ≤ u.hi then
    if u.needed = 1 then some (cuOfCp (u.val * 64 + (B - 0x80)), u8St0)
    else some ([], ⟨u.needed - 1, u.val * 64 + (B - 0x80), 0x80, 0xBF⟩)
  else none

/-- State of the Decode scan: how far into a percent escape the scan is
(0 outside, 1 after the percent sign, 2 after the first hex digit), the
first digit value, and the strict UTF-8 state. -/
structure UriSt where
  pend : Nat
  pa : Nat
  u : U8St
deriving DecidableEq, Repr

/-- One character of the ECMAScript Decode algorithm.  A percent sign
opens an escape; its two hex digits form a byte fed to the strict UTF-8
step; a plain character is only legal outside a multi-byte sequence. -/
def uriStep (st : UriSt) (c : Nat) : Option (Text × UriSt) :=
  if st.pend = 0 then
    if c = 37 then some ([], ⟨1, 0, st.u⟩)
    else if st.u.needed = 0 then some ([c], st) else none
  else if st.pend = 1 then
    match hexVal c with
    | some a => some ([], ⟨2, a, st.u⟩)
    | none => none
  else
    match hexVal c with
    | some b => (uriByte st.u (st.pa * 16 + b)).map (fun p => (p.1, ⟨0, 0, p.2⟩))
    | none => none

/-- Run the Decode scan; input ending inside an escape or inside a
multi-byte sequence is a URIError. -/
def uriRun (st : UriSt) : Text → Option Text
  | [] => if st.pend = 0 ∧ st.u.needed = 0 then some [] else none
  | c :: r =>
    match uriStep st c with
    | some p => (uriRun p.2 r).map (fun t => p.1 ++ t)
    | none => none

/-- The initial state of the Decode scan. -/
def uriSt0 : UriSt := ⟨0, 0, u8St0⟩

/-- decodeURIComponent: the ECMAScript Decode algorithm with an empty
reserved set.  Percent escapes must form a strictly valid UTF-8 encoding
of a scalar value; anything malformed raises URIError (none). -/
def decURIComp (s : Text) : Option Text := uriRun uriSt0 s

/-- The regex test for a percent escape: a percent sign followed by two
hexadecimal digits, anywhere in the string. -/
def hasPctHH : Text → Bool
  | c :: h1 :: h2 :: r =>
    (c = 37 && isHexDigit h1 && isHexDigit h2) || hasPctHH (h1 :: h2 :: r)
  | _ => false

/-- The regex test for a percent-u escape: percent, letter u, four
hexadecimal digits, anywhere in the string. -/
def hasPctU : Text → Bool
  | c :: u :: h1 :: h2 :: h3 :: h4 :: r =>
    (c = 37 && u = 117 && isHexDigit h1 && isHexDigit h2 && isHexDigit h3 && isHexDigit h4)
    || hasPctU (u :: h1 :: h2 :: h3 :: h4 :: r)
  | _ => false

/-- Lower-case hex expansion of a value below 0x100 padded to width two,
as toString(16).padStart(2) produces for such values. -/
def hexPad2 (n : Nat) : Text := [hexDigLower (n / 16 % 16), hexDigLower (n % 16)]

/-- Lower-case hex expansion of a value below 0x10000 padded to width
four. -/
def hexPad4 (n : Nat) : Text :=
  [hexDigLower (n / 4096 % 16), hexDigLower (n / 256 % 16),
   hexDigLower (n / 16 % 16), hexDigLower (n % 16)]

/-- toString(16).padStart(4) of a code point value: four digits up to
0xFFFF, five or six digits above (padStart never truncates). -/
def hexPadStart4 (n : Nat) : Text :=
  if n < 0x10000 then hexPad4 n
  else if n < 0x100000 then hexDigLower (n / 65536) :: hexPad4 (n % 65536)
  else 49 :: 48 :: hexPad4 (n % 65536)

/-- urlUEncode: iterate code points; below 0x80 emit a two-digit percent
escape, otherwise emit percent-u and the padStart(4) hex expansion of
the code point. -/
def urlUEncode (s : Text) : Text :=
  mapConcat
    (fun cp =>
      if cp < 0x80 then 37 :: hexPad2 cp
      else 37 :: 117 :: hexPadStart4 cp)
    (codePoints s)

/-- First global replace of urlUDecode: every percent-u escape with four
hexadecimal digits becomes the corresponding code unit. -/
def replaceU : Text → Text
  | c :: u :: h1 :: h2 :: h3 :: h4 :: r =>
    if c = 37 ∧ u = 117 ∧ isHexDigit h1 ∧ isHexDigit h2 ∧ isHexDigit h3 ∧ isHexDigit h4 then
      ((hexVal h1).getD 0 * 4096 + (hexVal h2).getD 0 * 256 +
        (hexVal h3).getD 0 * 16 + (hexVal h4).getD 0) :: replaceU r
    else c :: replaceU (u :: h1 :: h2 :: h3 :: h4 :: r)
  | c :: r => c :: replaceU r
  | [] => []

/-- Second global replace of urlUDecode: every two-digit percent escape
becomes the corresponding code unit. -/
def replaceHH : Text → Text
  | c :: h1 :: h2 :: r =>
    if c = 37 ∧ isHexDigit h1 ∧ isHexDigit h2 then
      ((hexVal h1).getD 0 * 16 + (hexVal h2).getD 0) :: replaceHH r
    else c :: replaceHH (h1 :: h2 :: r)
  | c :: r => c :: replaceHH r
  | [] => []

/-- urlUDecode: replace percent-u escapes first, then plain percent
escapes, both via String.fromCharCode. -/
def urlUDecode (s : Text) : Text := replaceHH (replaceU s)

/-- jsEscape is defined in the source as urlUEncode. -/
def jsEscape (s : Text) : Text := urlUEncode s

/-- jsUnescape is defined in the source as urlUDecode. -/
def jsUnescape (s : Text) : Text := urlUDecode s

/-- formUrlEncode second stage: the global replace of the three-character
sequence percent-two-zero by a plus sign. -/
def pct20ToPlus : Text → Text
  | c :: h1 :: h2 :: r =>
    if c = 37 ∧ h1 = 50 ∧ h2 = 48 then 43 :: pct20ToPlus r
    else c :: pct20ToPlus (h1 :: h2 :: r)
  | c :: r => c :: pct20ToPlus r
  | [] => []

/-- formUrlDecode first stage: the global replace of plus by space. -/
def plusToSpace (s : Text) : Text := s.map (fun c => if c = 43 then 32 else c)

/- ===== HTML entities ===== -/

/-- One global single-character replace, as String.prototype.replace with
a one-character global regex and a fixed replacement. -/
def replChar (t : Nat) (rep : Text) (s : Text) : Text :=
  mapConcat (fun c => if c = t then rep else [c]) s

/-- htmlEncode: the five sequential replaces of ampersand, less-than,
greater-than, double quote and single quote by their entities. -/
def htmlEncode (s : Text) : Text :=
  replChar 39 [38, 35, 51, 57, 59]
    (replChar 34 [38, 113, 117, 111, 116, 59]
      (replChar 62 [38, 103, 116, 59]
        (replChar 60 [38, 108, 116, 59]
          (replChar 38 [38, 97, 109, 112, 59] s))))

/-- Value of a list of hexadecimal digits. -/
def hexListVal (ds : Text) : Nat := ds.foldl (fun a c => a * 16 + (hexVal c).getD 0) 0

/-- Value of a list of decimal digits. -/
def decListVal (ds : Text) : Nat := ds.foldl (fun a c => a * 10 + (c - 48)) 0

/-- Modelled from the spec: htmlDecode delegates to the browser DOM
(assigning innerHTML of a detached textarea and reading back value),
which is host functionality outside the repository.  The spec describes
the decode as entity resolution of named and numeric character
references with unrecognized entities passed through unchanged.  The
named references are the five the panel emits, matched longest-first
with their legacy semicolon-free forms, as the HTML tokenizer does. -/
def htmlDecode : Text → Text
  | [] => []
  | c :: r =>
    if c ≠ 38 then c :: htmlDecode r
    else if [97, 109, 112, 59].isPrefixOf r then 38 :: htmlDecode (r.drop 4)
    else if [108, 116, 59].isPrefixOf r then 60 :: htmlDecode (r.drop 3)
    else if [103, 116, 59].isPrefixOf r then 62 :: htmlDecode (r.drop 3)
    else if [113, 117, 111, 116, 59].isPrefixOf r then 34 :: htmlDecode (r.drop 5)
    else if [97, 112, 111, 115, 59].isPrefixOf r then 39 :: htmlDecode (r.drop 5)
    else if [97, 109, 112].isPrefixOf r then 38 :: htmlDecode (r.drop 3)
    else if [108, 116].isPrefixOf r then 60 :: htmlDecode (r.drop 2)
    else if [103, 116].isPrefixOf r then 62 :: htmlDecode (r.drop 2)
    else if [113, 117, 111, 116].isPrefixOf r then 34 :: htmlDecode (r.drop 4)
    else if r.head? = some 35 then
      let r1 := r.drop 1
      if r1.head? = some 120 ∨ r1.head? = some 88 then
        let ds := (r1.drop 1).takeWhile isHexDigit
        if ds ≠ [] ∧ ((r1.drop 1).drop ds.length).head? = some 59 then
          (if hexListVal ds ≤ 0x10FFFF then cuOfCp (hexListVal ds) else [0xFFFD]) ++
            htmlDecode ((r1.drop 1).drop (ds.length + 1))
        else 38 :: htmlDecode r
      else
        let ds := r1.takeWhile isDigitCh
        if ds ≠ [] ∧ (r1.drop ds.length).head? = some 59 then
          (if decListVal ds ≤ 0x10FFFF then cuOfCp (decListVal ds) else [0xFFFD]) ++
            htmlDecode (r1.drop (ds.length + 1))
        else 38 :: htmlDecode r
    else 38 :: htmlDecode r
termination_by s => s.length
decreasing_by
  all_goals simp_wf
  all_goals omega

/-- Test of the entity regex at the position just after an ampersand:
a run of letters, a decimal reference, or a hexadecimal reference,
each terminated by a semicolon. -/
def entHere (r : Text) : Bool :=
  (decide (r.takeWhile isAsciiLetter ≠ []) &&
    (r.drop (r.takeWhile isAsciiLetter).length).head? = some 59) ||
  (match r with
   | 35 :: x :: r2 =>
     if x = 120 ∨ x = 88 then
       decide (r2.takeWhile isHexDigit ≠ []) &&
         (r2.drop (r2.takeWhile isHexDigit).length).head? = some 59
     else
       decide ((x :: r2).takeWhile isDigitCh ≠ []) &&
         ((x :: r2).drop ((x :: r2).takeWhile isDigitCh).length).head? = some 59
   | _ => false)

/-- The case-insensitive entity regex test: somewhere in the string an
ampersand starts a named, decimal, or hexadecimal reference. -/
def hasEntity : Text → Bool
  | [] => false
  | c :: r => (c = 38 && entHere r) || hasEntity r

/- ===== hex / ascii hex / octal / binary ===== -/

/-- hexEncode: each UTF-8 byte as two lower-case hex digits, no
separator. -/
def hexEncode (s : Text) : Text := mapConcat hexPad2 (utf8Enc s)

/-- Decode consecutive hex digit pairs into bytes (all characters are
known to be hexadecimal digits of even count). -/
def hexPairs : Text → Bytes
  | h1 :: h2 :: r => ((hexVal h1).getD 0 * 16 + (hexVal h2).getD 0) :: hexPairs r
  | _ => []

/-- hexDecodeToU8: strip all whitespace, require an even-length string of
hexadecimal digits, then decode byte pairs; otherwise throw. -/
def hexDecodeToU8 (hex : Text) : Option Bytes :=
  let clean := stripWs hex
  if clean.all isHexDigit ∧ clean.length % 2 = 0 then some (hexPairs clean) else none

/-- charCodeAt(0) of the one-code-point string an iterator yields: the
code point itself in the basic plane, the high surrogate above it. -/
def firstCU (cp : Nat) : Nat :=
  if cp < 0x10000 then cp else 0xD800 + (cp - 0x10000) / 0x400

/-- toString(16).padStart(2) of a code unit: two digits below 0x100,
three or four digits above (padStart never truncates). -/
def hexPadStart2 (n : Nat) : Text :=
  if n < 0x100 then hexPad2 n
  else if n < 0x1000 then
    [hexDigLower (n / 256 % 16), hexDigLower (n / 16 % 16), hexDigLower (n % 16)]
  else hexPad4 n

/-- asciiHexEncode: for each code point, the padStart(2) hex expansion of
its first code unit, joined with single spaces. -/
def asciiHexEncode (s : Text) : Text :=
  joinSp ((codePoints s).map (fun cp => hexPadStart2 (firstCU cp)))

/-- parseInt radix 16, prefix stage: strip an optional 0x or 0X. -/
def parseHexPrefix (s2 : Text) : Text :=
  if s2.head? = some 48 ∧ ((s2.drop 1).head? = some 120 ∨ (s2.drop 1).head? = some 88)
  then s2.drop 2 else s2

/-- parseInt radix 16, digit stage: the longest run of hexadecimal
digits; none (NaN) when it is empty. -/
def parseHexRun (s3 : Text) : Option Nat :=
  if s3.takeWhile isHexDigit = [] then none
  else some (hexListVal (s3.takeWhile isHexDigit))

/-- parseInt with radix 16: skip leading whitespace, optional sign,
optional 0x prefix, then the longest run of hexadecimal digits; none
models NaN.  Values stay exact (inputs in this development stay far
below 2 to the 53, where the JavaScript double is exact). -/
def parseIntHex (s : Text) : Option Int :=
  if (s.dropWhile isJsWs).head? = some 45 then
    (parseHexRun (parseHexPrefix ((s.dropWhile isJsWs).drop 1))).map (fun n => -(n : Int))
  else if (s.dropWhile isJsWs).head? = some 43 then
    (parseHexRun (parseHexPrefix ((s.dropWhile isJsWs).drop 1))).map (fun n => (n : Int))
  else
    (parseHexRun (parseHexPrefix (s.dropWhile isJsWs))).map (fun n => (n : Int))

/-- ToUint16 of a parseInt result, as String.fromCharCode applies it:
NaN becomes zero, other values are taken modulo 0x10000. -/
def toUint16 (v : Option Int) : Nat :=
  match v with
  | none => 0
  | some i => (i % 65536).toNat

/-- asciiHexDecode: trim, split on whitespace runs, parse every token
with parseInt radix 16 and map it through String.fromCharCode.  This
never throws: an unparsable token yields NaN, hence code unit zero. -/
def asciiHexDecode (hexs : Text) : Text :=
  (splitWs (trim hexs)).map (fun t => toUint16 (parseIntHex t))

/-- An eight-digit binary expansion of a byte. -/
def binPad8 (b : Nat) : Text :=
  [48 + b / 128 % 2, 48 + b / 64 % 2, 48 + b / 32 % 2, 48 + b / 16 % 2,
   48 + b / 8 % 2, 48 + b / 4 % 2, 48 + b / 2 % 2, 48 + b % 2]

/-- binaryEncode: each UTF-8 byte as eight binary digits, joined with
single spaces. -/
def binaryEncode (s : Text) : Text := joinSp ((utf8Enc s).map binPad8)

/-- binaryDecodeU8: trim, split on whitespace; every token must be
exactly eight binary digits and is parsed into a byte; otherwise
throw.  The Uint8Array store reduces modulo 256. -/
def binaryDecodeU8 (bin : Text) : Option Bytes :=
  let parts := splitWs (trim bin)
  if parts.all (fun p => p.length = 8 && p.all (fun c => c = 48 || c = 49)) then
    some (parts.map (fun p => (p.foldl (fun a c => a * 2 + (c - 48)) 0) % 256))
  else none

/-- A three-digit octal expansion of a byte. -/
def octPad3 (b : Nat) : Text := [48 + b / 64 % 8, 48 + b / 8 % 8, 48 + b % 8]

/-- octalEncode: each UTF-8 byte as three octal digits, joined with
single spaces. -/
def octalEncode (s : Text) : Text := joinSp ((utf8Enc s).map octPad3)

/-- octalDecodeU8: trim, split on whitespace; every token must be one to
three octal digits and is parsed into a byte; otherwise throw.  The
Uint8Array store reduces modulo 256 (a token like 777 wraps). -/
def octalDecodeU8 (oct : Text) : Option Bytes :=
  let parts := splitWs (trim oct)
  if parts.all (fun p => decide (1 ≤ p.length) && decide (p.length ≤ 3) &&
      p.all (fun c => 48 ≤ c && c ≤ 55)) then
    some (parts.map (fun p => (p.foldl (fun a c => a * 8 + (c - 48)) 0) % 256))
  else none

/- ===== ROT13 ===== -/

/-- rot13: shift letters by thirteen inside their case, of the global
letter-class replace of the source. -/
def rot13 (s : Text) : Text :=
  s.map (fun c =>
    if 65 ≤ c ∧ c ≤ 90 then (c - 65 + 13) % 26 + 65
    else if 97 ≤ c ∧ c ≤ 122 then (c - 97 + 13) % 26 + 97
    else c)

/- ===== JSON (host builtin, modelled) ===== -/

/-- JSON insignificant whitespace. -/
def skipWsJ (s : Text) : Text :=
  s.dropWhile (fun c => c = 0x20 || c = 0x09 || c = 0x0A || c = 0x0D)

/-- Scan past the body of a JSON string after its opening quote,
honouring backslash escapes; return the remainder after the closing
quote. -/
def jsonStrEnd : Text → Option Text
  | [] => none
  | 34 :: r => some r
  | 92 :: _c :: r => jsonStrEnd r
  | _ :: r => jsonStrEnd r

/-- Scan past a JSON number; none when the text does not start with a
well-formed number. -/
def jsonNumEnd (s : Text) : Option Text :=
  let s1 := if s.head? = some 45 then s.drop 1 else s
  let ds := s1.takeWhile isDigitCh
  if ds = [] ∨ (ds.length > 1 ∧ ds.head? = some 48) then none
  else
    let s2 := s1.drop ds.length
    let s3 : Option Text :=
      match s2 with
      | 46 :: r =>
        let fs := r.takeWhile isDigitCh
        if fs = [] then none else some (r.drop fs.length)
      | _ => some s2
    match s3 with
    | none => none
    | some s4 =>
      match s4 with
      | e :: r =>
        if e = 101 ∨ e = 69 then
          let r1 := if r.head? = some 43 ∨ r.head? = some 45 then r.drop 1 else r
          let es := r1.takeWhile isDigitCh
          if es = [] then none else some (r1.drop es.length)
        else some s4
      | [] => some s4

/-- Mode of the JSON scanner: a value, object members, or array
elements. -/
inductive JMode
  | val
  | members
  | elements
deriving DecidableEq

/-- Modelled from the spec: JSON.parse is a host builtin; the spec only
requires that each JWT segment JSON-parse.  A fuel-indexed recursive
descent over the JSON grammar; returns the unconsumed remainder on
success. -/
def jsonP : Nat → JMode → Text → Option Text
  | 0, _, _ => none
  | fuel + 1, .val, s =>
    match skipWsJ s with
    | [] => none
    | c :: r =>
      if c = 123 then
        match skipWsJ r with
        | 125 :: r2 => some r2
        | _ => jsonP fuel .members r
      else if c = 91 then
        match skipWsJ r with
        | 93 :: r2 => some r2
        | _ => jsonP fuel .elements r
      else if c = 34 then jsonStrEnd r
      else if c = 116 then
        if [114, 117, 101].isPrefixOf r then some (r.drop 3) else none
      else if c = 102 then
        if [97, 108, 115, 101].isPrefixOf r then some (r.drop 4) else none
      else if c = 110 then
        if [117, 108, 108].isPrefixOf r then some (r.drop 3) else none
      else jsonNumEnd (c :: r)
  | fuel + 1, .members, s =>
    match skipWsJ s with
    | 34 :: r =>
      match jsonStrEnd r with
      | none => none
      | some r2 =>
        match skipWsJ r2 with
        | 58 :: r3 =>
          match jsonP fuel .val r3 with
          | none => none
          | some r4 =>
            match skipWsJ r4 with
            | 44 :: r5 => jsonP fuel .members r5
            | 125 :: r5 => some r5
            | _ => none
        | _ => none
    | _ => none
  | fuel + 1, .elements, s =>
    match jsonP fuel .val s with
    | none => none
    | some r =>
      match skipWsJ r with
      | 44 :: r2 => jsonP fuel .elements r2
      | 93 :: r2 => some r2
      | _ => none

/-- JSON.parse succeeds: one JSON value covering the whole text. -/
def jsonOk (s : Text) : Bool :=
  match jsonP (s.length + 1) .val s with
  | some r => (skipWsJ r).isEmpty
  | none => false

/- ===== JWT ===== -/

/-- Character class of a JWT segment: the Base64URL alphabet. -/
def isB64UrlChar (c : Nat) : Bool :=
  isAsciiLetter c || isDigitCh c || c = 45 || c = 95

/-- The anchored JWT regex of tryDecodeJwt: two mandatory dot-separated
nonempty Base64URL-alphabet segments followed by a mandatory dot and an
optional third segment.  A two-segment token without a trailing dot
does not match.  Returns the first two segments. -/
def jwtMatch (s : Text) : Option (Text × Text) :=
  let a := s.takeWhile isB64UrlChar
  match s.drop a.length with
  | 46 :: r2 =>
    let b := r2.takeWhile isB64UrlChar
    if a ≠ [] ∧ b ≠ [] then
      match r2.drop b.length with
      | 46 :: r4 => if r4.all isB64UrlChar then some (a, b) else none
      | _ => none
    else none
  | _ => none

/-- Modelled from the spec: JSON.parse and JSON.stringify are host
builtins, so parsing is the jsonOk syntax check and the formatted dump
of header and payload is abstracted as the two decoded texts joined by
a newline (it contains both decoded objects).  Everything else follows
the source: match the regex, Base64URL-decode and UTF-8-decode the
first two segments, JSON-parse both, and return null on any failure. -/
def tryDecodeJwt (s : Text) : Option Text :=
  match jwtMatch s with
  | none => none
  | some (a, b) =>
    match fromBase64Url a, fromBase64Url b with
    | some ha, some pa =>
      let ht := utf8DecR ha
      let pt := utf8DecR pa
      if jsonOk ht ∧ jsonOk pt then some (ht ++ [10] ++ pt) else none
    | _, _ => none

/-- The message decode returns when tryDecodeJwt yields null. -/
def jwtFailMsg : Text :=
  [74, 87, 84, 32, 12392, 12375, 12390, 35299, 37320, 12391, 12365, 12414, 12379, 12435]

/-- The message encode returns for the jwt method. -/
def jwtEncodeMsg : Text :=
  [74, 87, 84, 32, 12399, 12456, 12531, 12467, 12540, 12489, 23550, 35937, 22806,
   65288, 32626, 21517, 29983, 25104, 12364, 24517, 35201, 65289]

/- ===== gzip (host streams, modelled) ===== -/

/-- Modelled from the spec: the gzip codec drives the browser streams
CompressionStream and DecompressionStream, host functionality outside
the repository.  The spec states compression is a deterministic byte
transform and decompression inverts it, failing on corrupt input; any
pair of byte functions with those properties is admitted. -/
structure GzipModel where
  compress : Bytes → Bytes
  decompress : Bytes → Option Bytes
  roundtrip : ∀ bs, decompress (compress bs) = some bs
  compressBytes : ∀ bs, (∀ b ∈ bs, b < 256) → ∀ b ∈ compress bs, b < 256

/-- The identity instance of the gzip interface, used to instantiate
closed statements whose truth does not depend on the compressor. -/
def gzipId : GzipModel :=
  ⟨fun bs => bs, fun bs => some bs, fun _ => rfl, fun _ h => h⟩

/-- gzipCompressToBase64: UTF-8 encode, compress, Base64. -/
def gzipCompressToBase64 (G : GzipModel) (text : Text) : Text :=
  toBase64 (G.compress (utf8Enc text))

/-- gzipDecompressFromBase64: Base64-decode, decompress, UTF-8 decode;
a failure at either stage rejects. -/
def gzipDecompressFromBase64 (G : GzipModel) (b64 : Text) : Option Text :=
  (fromBase64 b64).bind (fun u8 => (G.decompress u8).map utf8DecR)

/- ===== the panel operations ===== -/

/-- The closed set of codec identifiers of the panel. -/
inductive Method
  | url
  | url_u
  | formurl
  | base64
  | base64url
  | html
  | ascii_hex
  | hex
  | octal
  | binary
  | gzip
  | js_escape
  | jwt
  | rot13
deriving DecidableEq, Repr

/-- The encode handler: the switch of the source, with none modelling an
uncaught throw inside the switch (before the enclosing catch would
rewrite the output; the catch itself is UI feedback, the value carried
is the one modelled here when some). -/
def encode (G : GzipModel) (m : Method) (input : Text) : Option Text :=
  match m with
  | .url => encURIComp input
  | .url_u => some (urlUEncode input)
  | .formurl => (encURIComp input).map pct20ToPlus
  | .base64 => some (toBase64 (utf8Enc input))
  | .base64url => some (toBase64Url (toBase64 (utf8Enc input)))
  | .html => some (htmlEncode input)
  | .ascii_hex => some (asciiHexEncode input)
  | .hex => some (hexEncode input)
  | .octal => some (octalEncode input)
  | .binary => some (binaryEncode input)
  | .gzip => some (gzipCompressToBase64 G input)
  | .js_escape => some (jsEscape input)
  | .jwt => some jwtEncodeMsg
  | .rot13 => some (rot13 input)

/-- The decode handler: the switch of the source; none models a decode
failure (the thrown error that the enclosing catch reports). -/
def decode (G : GzipModel) (m : Method) (input : Text) : Option Text :=
  match m with
  | .url => decURIComp input
  | .url_u => some (urlUDecode input)
  | .formurl => decURIComp (plusToSpace input)
  | .base64 => (fromBase64 input).map utf8DecR
  | .base64url => (fromBase64Url input).map utf8DecR
  | .html => some (htmlDecode input)
  | .ascii_hex => some (asciiHexDecode input)
  | .hex => (hexDecodeToU8 input).map utf8DecR
  | .octal => (octalDecodeU8 input).map utf8DecR
  | .binary => (binaryDecodeU8 input).map utf8DecR
  | .gzip => gzipDecompressFromBase64 G input
  | .js_escape => some (jsUnescape input)
  | .jwt => some ((tryDecodeJwt input).getD jwtFailMsg)
  | .rot13 => some (rot13 input)

/- ===== Smart Decode ===== -/

/-- Result of the smart detector: the codec it settled on (none for the
undetermined sentinel) and the output text it produced. -/
structure SmartResult where
  codec : Option Method
  output : Text
deriving DecidableEq, Repr

/-- One wrapped cascade step: a some result returns with its method tag,
a none result (a thrown or failed decode) falls through to the next
step. -/
def attempt (m : Method) (r : Option Text) (next : Option SmartResult) : Option SmartResult :=
  match r with
  | some t => some ⟨some m, t⟩
  | none => next

/-- The gzip magic-number test of step two: at least two decoded bytes
beginning 0x1F 0x8B. -/
def gzMagic : Bytes → Bool
  | b0 :: b1 :: _ => b0 = 0x1F && b1 = 0x8B
  | _ => false

/-- The undetermined sentinel message of the smart detector. -/
def undeterminedMsg : Text :=
  [83, 109, 97, 114, 116, 32, 68, 101, 99, 111, 100, 101, 58, 32, 24418, 24335,
   12434, 21028, 23450, 12391, 12365, 12414, 12379, 12435, 12391, 12375, 12383]

/-- Cascade steps from the form-url attempt on: form URL, HTML
entities, hex, ASCII hex, binary, octal, the ROT13 fallback, and the
undetermined sentinel.  The ASCII-hex attempt can never fall through,
since asciiHexDecode is total. -/
def smartTail (s : Text) : Option SmartResult :=
  attempt .formurl
    (if s.any (fun c => c = 43) && hasPctHH s then decURIComp (plusToSpace s) else none)
    (attempt .html (if hasEntity s then some (htmlDecode s) else none)
      (attempt .hex ((hexDecodeToU8 s).map utf8DecR)
        (attempt .ascii_hex (some (asciiHexDecode s))
          (attempt .binary ((binaryDecodeU8 s).map utf8DecR)
            (attempt .octal ((octalDecodeU8 s).map utf8DecR)
              (if s.any isAsciiLetter && (rot13 s).any isAsciiLetter then
                some ⟨some .rot13, rot13 s⟩
              else some ⟨none, undeterminedMsg⟩))))))

/-- The URL steps of the cascade.  The percent test is evaluated on the
raw string first; only when it fails is encodeURIComponent applied to
the input, outside any try block, so a lone surrogate escapes the
cascade as an uncaught URIError (none). -/
def smartUrl (s : Text) : Option SmartResult :=
  if hasPctHH s then attempt .url (decURIComp s) (smartTail s)
  else
    match encURIComp s with
    | none => none
    | some e =>
      if hasPctHH e then attempt .url (decURIComp s) (smartTail s)
      else smartTail s

/-- Step two of the cascade: when the input Base64-decodes and carries
the gzip magic bytes, gzip decompression decides the step; its failure
is caught and the cascade falls through. -/
def smartGz (G : GzipModel) (s : Text) : Option SmartResult :=
  match fromBase64 s with
  | some u8 =>
    if gzMagic u8 then
      match gzipDecompressFromBase64 G s with
      | some txt => some ⟨some .gzip, txt⟩
      | none => none
    else none
  | none => none

/-- The smart cascade over the trimmed input: JWT, gzip magic, Base64,
Base64URL, percent-u, then the URL steps and the tail. -/
def smartCore (G : GzipModel) (s : Text) : Option SmartResult :=
  match tryDecodeJwt s with
  | some j => some ⟨some .jwt, j⟩
  | none =>
    match smartGz G s with
    | some r => some r
    | none =>
      attempt .base64 ((fromBase64 s).map utf8DecR)
        (attempt .base64url ((fromBase64Url s).map utf8DecR)
          (attempt .url_u (if hasPctU s then some (urlUDecode s) else none)
            (smartUrl s)))

/-- The smart handler: trim the input, then run the cascade.  A none
result models an exception escaping the handler; the source never
reaches its undetermined sentinel through a thrown step. -/
def smart (G : GzipModel) (input : Text) : Option SmartResult :=
  smartCore G (trim input)

/- ===== basic list lemmas ===== -/

theorem mapConcat_append (f : Nat → List Nat) (a b : List Nat) :
    mapConcat f (a ++ b) = mapConcat f a ++ mapConcat f b := by
  induction a with
  | nil => rfl
  | cons c r ih => simp [mapConcat, ih]

/-- A Unicode scalar value: in range and not a surrogate. -/
def IsScalar (cp : Nat) : Prop := cp < 0x110000 ∧ ¬(0xD800 ≤ cp ∧ cp < 0xE000)

theorem cuOfCp_bmp {cp : Nat} (h : cp < 0x10000) : cuOfCp cp = [cp] := by
  simp [cuOfCp, h]

/-- Decomposition of a well-formed string: empty, or a first scalar
followed by a well-formed remainder. -/
theorem scalars_struct {s : Text} {cps : List Nat} (h : scalars s = some cps) :
    (s = [] ∧ cps = []) ∨
    ∃ cp cps2 s2, cps = cp :: cps2 ∧ s = cuOfCp cp ++ s2 ∧
      scalars s2 = some cps2 ∧ IsScalar cp := by
  match s with
  | [] =>
    left
    simp only [scalars, Option.some.injEq] at h
    exact ⟨rfl, h.symm⟩
  | [c] =>
    right
    simp only [scalars] at h
    by_cases h1 : c < 0xD800 ∨ (0xE000 ≤ c ∧ c < 0x10000)
    · rw [if_pos h1, Option.some.injEq] at h
      exact ⟨c, [], [], h.symm, by rw [cuOfCp_bmp (by omega)]; simp, rfl,
        by constructor <;> omega⟩
    · rw [if_neg h1] at h
      exact absurd h (by simp)
  | c :: d :: r =>
    right
    simp only [scalars] at h
    by_cases h1 : c < 0xD800 ∨ (0xE000 ≤ c ∧ c < 0x10000)
    · rw [if_pos h1, Option.map_eq_some'] at h
      obtain ⟨cps2, hr, hc⟩ := h
      exact ⟨c, cps2, d :: r, hc.symm, by rw [cuOfCp_bmp (by omega)]; rfl, hr,
        by constructor <;> omega⟩
    · rw [if_neg h1] at h
      by_cases h2 : c < 0xDC00 ∧ 0xDC00 ≤ d ∧ d < 0xE000
      · rw [if_pos h2, Option.map_eq_some'] at h
        obtain ⟨cps2, hr, hc⟩ := h
        refine ⟨0x10000 + (c - 0xD800) * 0x400 + (d - 0xDC00), cps2, r,
          hc.symm, ?_, hr, by constructor <;> omega⟩
        have hd : d - 0xDC00 < 0x400 := by omega
        simp only [cuOfCp]
        rw [if_neg (by omega)]
        have e1 : 0x10000 + (c - 0xD800) * 0x400 + (d - 0xDC00) - 0x10000 =
            (c - 0xD800) * 0x400 + (d - 0xDC00) := by omega
        have e2 : ((c - 0xD800) * 0x400 + (d - 0xDC00)) / 0x400 = c - 0xD800 := by omega
        have e3 : ((c - 0xD800) * 0x400 + (d - 0xDC00)) % 0x400 = d - 0xDC00 := by omega
        rw [e1, e2, e3]
        simp only [List.cons_append, List.nil_append, List.cons.injEq]
        exact ⟨by omega, by omega, trivial⟩
      · rw [if_neg h2] at h
        exact absurd h (by simp)

/- ===== UTF-8 round trip ===== -/

theorem utf8Enc_cuOfCp {cp : Nat} (h : IsScalar cp) (s2 : Text) :
    utf8Enc (cuOfCp cp ++ s2) = encCp cp ++ utf8Enc s2 := by
  obtain ⟨hlt, hns⟩ := h
  by_cases hb : cp < 0x10000
  · rw [cuOfCp_bmp hb]
    match s2 with
    | [] =>
      simp only [List.cons_append, List.nil_append, utf8Enc]
      rw [if_pos (by omega)]
      simp
    | d :: r =>
      simp only [List.cons_append, List.nil_append, utf8Enc]
      rw [if_pos (by omega)]
  · simp only [cuOfCp]
    rw [if_neg (by omega)]
    simp only [List.cons_append, List.nil_append, utf8Enc]
    have hhi : ¬(0xD800 + (cp - 0x10000) / 0x400 < 0xD800 ∨
        0xE000 ≤ 0xD800 + (cp - 0x10000) / 0x400) := by
      have : (cp - 0x10000) / 0x400 < 0x400 := by
        have : cp - 0x10000 < 0x100000 := by omega
        omega
      omega
    rw [if_neg hhi]
    have hpair : 0xD800 + (cp - 0x10000) / 0x400 < 0xDC00 ∧
        0xDC00 ≤ 0xDC00 + (cp - 0x10000) % 0x400 ∧
        0xDC00 + (cp - 0x10000) % 0x400 < 0xE000 := by
      have h1 : (cp - 0x10000) / 0x400 < 0x400 := by omega
      have h2 : (cp - 0x10000) % 0x400 < 0x400 := Nat.mod_lt _ (by omega)
      omega
    rw [if_pos hpair]
    have e : 0x10000 + (0xD800 + (cp - 0x10000) / 0x400 - 0xD800) * 0x400 +
        (0xDC00 + (cp - 0x10000) % 0x400 - 0xDC00) = cp := by
      have e1 : 0xD800 + (cp - 0x10000) / 0x400 - 0xD800 = (cp - 0x10000) / 0x400 := by omega
      have e2 : 0xDC00 + (cp - 0x10000) % 0x400 - 0xDC00 = (cp - 0x10000) % 0x400 := by omega
      rw [e1, e2]
      have := Nat.div_add_mod (cp - 0x10000) 0x400
      omega
    rw [e]
    simp

theorem utf8Enc_scalars : ∀ (cps : List Nat) (s : Text), scalars s = some cps →
    utf8Enc s = mapConcat encCp cps := by
  intro cps
  induction cps with
  | nil =>
    intro s h
    rcases scalars_struct h with ⟨he, _⟩ | ⟨cp, cps2, s2, hc, _, _, _⟩
    · rw [he]; rfl
    · exact absurd hc (by simp)
  | cons cp cps2 ih =>
    intro s h
    rcases scalars_struct h with ⟨_, he⟩ | ⟨cp2, cps3, s2, hc, hs, hsc, hval⟩
    · exact absurd he (by simp)
    · obtain ⟨e1, e2⟩ : cp2 = cp ∧ cps3 = cps2 := by
        constructor <;> simp_all
      subst e1 e2 hs
      rw [utf8Enc_cuOfCp hval, ih s2 hsc]
      rfl


theorem u8Run_cons (st : U8St) (b : Nat) (r : Bytes) :
    u8Run st (b :: r) = (u8Step st b).1 ++ u8Run (u8Step st b).2 r := rfl

theorem u8Run_cons_pair {st : U8St} {b : Nat} {out : Text} {st2 : U8St} (r : Bytes)
    (h : u8Step st b = (out, st2)) :
    u8Run st (b :: r) = out ++ u8Run st2 r := by
  rw [u8Run_cons, h]

theorem u8Step_init (b : Nat) : u8Step u8St0 b = u8Init b := by
  simp [u8Step, u8St0]

theorem u8Init_ascii {b : Nat} (h : b < 0x80) : u8Init b = ([b], u8St0) := by
  simp [u8Init, u8St0, h]

theorem u8Init_lead2 {b : Nat} (h1 : 0xC2 ≤ b) (h2 : b ≤ 0xDF) :
    u8Init b = ([], ⟨1, b - 0xC0, 0x80, 0xBF⟩) := by
  simp only [u8Init]
  rw [if_neg (by omega), if_neg (by omega), if_pos (by omega)]

theorem u8Init_lead3 {b : Nat} (h1 : 0xE0 ≤ b) (h2 : b ≤ 0xEF) :
    u8Init b = ([], ⟨2, b - 0xE0, if b = 0xE0 then 0xA0 else 0x80,
      if b = 0xED then 0x9F else 0xBF⟩) := by
  simp only [u8Init]
  rw [if_neg (by omega), if_neg (by omega), if_neg (by omega), if_pos (by omega)]

theorem u8Init_lead4 {b : Nat} (h1 : 0xF0 ≤ b) (h2 : b ≤ 0xF4) :
    u8Init b = ([], ⟨3, b - 0xF0, if b = 0xF0 then 0x90 else 0x80,
      if b = 0xF4 then 0x8F else 0xBF⟩) := by
  simp only [u8Init]
  rw [if_neg (by omega), if_neg (by omega), if_neg (by omega), if_neg (by omega),
    if_pos (by omega)]

theorem u8Step_cont_done {v lo hi b : Nat} (h : lo ≤ b ∧ b ≤ hi) :
    u8Step ⟨1, v, lo, hi⟩ b = (cuOfCp (v * 64 + (b - 0x80)), u8St0) := by
  simp [u8Step, u8St0, h]

theorem u8Step_cont_more {n v lo hi b : Nat} (h : lo ≤ b ∧ b ≤ hi) (hn : 2 ≤ n) :
    u8Step ⟨n, v, lo, hi⟩ b = ([], ⟨n - 1, v * 64 + (b - 0x80), 0x80, 0xBF⟩) := by
  simp only [u8Step]
  rw [if_neg (by omega), if_pos h, if_neg (by omega)]

/-- Decoding the UTF-8 bytes of one scalar from the initial state yields
its code units and returns to the initial state. -/
theorem u8Run_encCp {cp : Nat} (h : IsScalar cp) (bs : Bytes) :
    u8Run u8St0 (encCp cp ++ bs) = cuOfCp cp ++ u8Run u8St0 bs := by
  obtain ⟨hlt, hns⟩ := h
  by_cases h1 : cp < 0x80
  · have e1 : u8Step u8St0 cp = ([cp], u8St0) := by
      rw [u8Step_init]
      exact u8Init_ascii h1
    rw [encCp, if_pos h1, List.cons_append, List.nil_append,
      u8Run_cons_pair bs e1, cuOfCp_bmp (by omega)]
  · by_cases h2 : cp < 0x800
    · have e1 : u8Step u8St0 (0xC0 + cp / 64) = ([], ⟨1, cp / 64, 0x80, 0xBF⟩) := by
        rw [u8Step_init, u8Init_lead2 (by omega) (by omega)]
        have : 0xC0 + cp / 64 - 0xC0 = cp / 64 := by omega
        rw [this]
      have e2 : u8Step ⟨1, cp / 64, 0x80, 0xBF⟩ (0x80 + cp % 64) =
          (cuOfCp cp, u8St0) := by
        rw [u8Step_cont_done (by omega)]
        have : cp / 64 * 64 + (0x80 + cp % 64 - 0x80) = cp := by omega
        rw [this]
      rw [encCp, if_neg h1, if_pos h2, List.cons_append, List.cons_append,
        List.nil_append, u8Run_cons_pair _ e1, u8Run_cons_pair bs e2]
      simp
    · by_cases h3 : cp < 0x10000
      · have e1 : u8Step u8St0 (0xE0 + cp / 4096) = ([], ⟨2, cp / 4096,
            if 0xE0 + cp / 4096 = 0xE0 then 0xA0 else 0x80,
            if 0xE0 + cp / 4096 = 0xED then 0x9F else 0xBF⟩) := by
          rw [u8Step_init, u8Init_lead3 (by omega) (by omega)]
          have : 0xE0 + cp / 4096 - 0xE0 = cp / 4096 := by omega
          rw [this]
        have hb2 : (if 0xE0 + cp / 4096 = 0xE0 then 0xA0 else 0x80) ≤
              0x80 + cp / 64 % 64 ∧
            0x80 + cp / 64 % 64 ≤ (if 0xE0 + cp / 4096 = 0xED then 0x9F else 0xBF) := by
          by_cases hE : cp / 4096 = 0
          · rw [if_pos (by omega), if_neg (by omega)]
            omega
          · by_cases hD : cp / 4096 = 13
            · rw [if_neg (by omega), if_pos (by omega)]
              omega
            · rw [if_neg (by omega), if_neg (by omega)]
              omega
        have e2 : u8Step ⟨2, cp / 4096,
              if 0xE0 + cp / 4096 = 0xE0 then 0xA0 else 0x80,
              if 0xE0 + cp / 4096 = 0xED then 0x9F else 0xBF⟩ (0x80 + cp / 64 % 64) =
            ([], ⟨1, cp / 4096 * 64 + cp / 64 % 64, 0x80, 0xBF⟩) := by
          rw [u8Step_cont_more hb2 (by omega)]
          have : 0x80 + cp / 64 % 64 - 0x80 = cp / 64 % 64 := by omega
          rw [this]
        have e3 : u8Step ⟨1, cp / 4096 * 64 + cp / 64 % 64, 0x80, 0xBF⟩
            (0x80 + cp % 64) = (cuOfCp cp, u8St0) := by
          rw [u8Step_cont_done (by omega)]
          have : (cp / 4096 * 64 + cp / 64 % 64) * 64 + (0x80 + cp % 64 - 0x80) = cp := by
            omega
          rw [this]
        rw [encCp, if_neg h1, if_neg h2, if_pos h3, List.cons_append, List.cons_append,
          List.cons_append, List.nil_append, u8Run_cons_pair _ e1, u8Run_cons_pair _ e2,
          u8Run_cons_pair bs e3]
        simp
      · have e1 : u8Step u8St0 (0xF0 + cp / 262144) = ([], ⟨3, cp / 262144,
            if 0xF0 + cp / 262144 = 0xF0 then 0x90 else 0x80,
            if 0xF0 + cp / 262144 = 0xF4 then 0x8F else 0xBF⟩) := by
          rw [u8Step_init, u8Init_lead4 (by omega) (by omega)]
          have : 0xF0 + cp / 262144 - 0xF0 = cp / 262144 := by omega
          rw [this]
        have hb2 : (if 0xF0 + cp / 262144 = 0xF0 then 0x90 else 0x80) ≤
              0x80 + cp / 4096 % 64 ∧
            0x80 + cp / 4096 % 64 ≤
              (if 0xF0 + cp / 262144 = 0xF4 then 0x8F else 0xBF) := by
          by_cases hE : cp / 262144 = 0
          · rw [if_pos (by omega), if_neg (by omega)]
            omega
          · by_cases hD : cp / 262144 = 4
            · rw [if_neg (by omega), if_pos (by omega)]
              omega
            · rw [if_neg (by omega), if_neg (by omega)]
              omega
        have e2 : u8Step ⟨3, cp / 262144,
              if 0xF0 + cp / 262144 = 0xF0 then 0x90 else 0x80,
              if 0xF0 + cp / 262144 = 0xF4 then 0x8F else 0xBF⟩ (0x80 + cp / 4096 % 64) =
            ([], ⟨2, cp / 262144 * 64 + cp / 4096 % 64, 0x80, 0xBF⟩) := by
          rw [u8Step_cont_more hb2 (by omega)]
          have : 0x80 + cp / 4096 % 64 - 0x80 = cp / 4096 % 64 := by omega
          rw [this]
        have e3 : u8Step ⟨2, cp / 262144 * 64 + cp / 4096 % 64, 0x80, 0xBF⟩
            (0x80 + cp / 64 % 64) =
            ([], ⟨1, (cp / 262144 * 64 + cp / 4096 % 64) * 64 + cp / 64 % 64,
              0x80, 0xBF⟩) := by
          rw [u8Step_cont_more (by omega) (by omega)]
          have : 0x80 + cp / 64 % 64 - 0x80 = cp / 64 % 64 := by omega
          rw [this]
        have e4 : u8Step ⟨1, (cp / 262144 * 64 + cp / 4096 % 64) * 64 + cp / 64 % 64,
              0x80, 0xBF⟩ (0x80 + cp % 64) = (cuOfCp cp, u8St0) := by
          rw [u8Step_cont_done (by omega)]
          have : ((cp / 262144 * 64 + cp / 4096 % 64) * 64 + cp / 64 % 64) * 64 +
              (0x80 + cp % 64 - 0x80) = cp := by omega
          rw [this]
        rw [encCp, if_neg h1, if_neg h2, if_neg h3, List.cons_append, List.cons_append,
          List.cons_append, List.cons_append, List.nil_append, u8Run_cons_pair _ e1,
          u8Run_cons_pair _ e2, u8Run_cons_pair _ e3, u8Run_cons_pair bs e4]
        simp

theorem scalars_eq_concat : ∀ (cps : List Nat) (s : Text), scalars s = some cps →
    s = mapConcat cuOfCp cps := by
  intro cps
  induction cps with
  | nil =>
    intro s h
    rcases scalars_struct h with ⟨he, _⟩ | ⟨cp, cps2, s2, hc, _, _, _⟩
    · rw [he]; rfl
    · exact absurd hc (by simp)
  | cons cp cps2 ih =>
    intro s h
    rcases scalars_struct h with ⟨_, he⟩ | ⟨cp2, cps3, s2, hc, hs, hsc, hval⟩
    · exact absurd he (by simp)
    · obtain ⟨e1, e2⟩ : cp2 = cp ∧ cps3 = cps2 := by constructor <;> simp_all
      subst e1 e2 hs
      rw [ih s2 hsc]
      rfl

theorem scalars_all_scalar : ∀ (cps : List Nat) (s : Text), scalars s = some cps →
    ∀ cp ∈ cps, IsScalar cp := by
  intro cps
  induction cps with
  | nil => intro s _ cp hm; exact absurd hm (by simp)
  | cons cp cps2 ih =>
    intro s h c hm
    rcases scalars_struct h with ⟨_, he⟩ | ⟨cp2, cps3, s2, hc, hs, hsc, hval⟩
    · exact absurd he (by simp)
    · obtain ⟨e1, e2⟩ : cp2 = cp ∧ cps3 = cps2 := by constructor <;> simp_all
      subst e1 e2
      rcases List.mem_cons.mp hm with he | hm2
      · rw [he]; exact hval
      · exact ih s2 hsc c hm2

theorem u8Run_concat : ∀ (cps : List Nat), (∀ cp ∈ cps, IsScalar cp) → ∀ (bs : Bytes),
    u8Run u8St0 (mapConcat encCp cps ++ bs) =
      mapConcat cuOfCp cps ++ u8Run u8St0 bs := by
  intro cps
  induction cps with
  | nil => intro _ bs; rfl
  | cons cp cps2 ih =>
    intro h bs
    have h1 : IsScalar cp := h cp (by simp)
    have h2 : ∀ c ∈ cps2, IsScalar c := fun c hc => h c (by simp [hc])
    simp only [mapConcat, List.append_assoc]
    rw [u8Run_encCp h1, ih h2 bs]

/-- The UTF-8 round trip: decoding the TextEncoder bytes of a
well-formed string restores the string. -/
theorem utf8_roundtrip {s : Text} (h : wfStr s = true) :
    utf8DecR (utf8Enc s) = s := by
  obtain ⟨cps, hc⟩ : ∃ cps, scalars s = some cps := by
    unfold wfStr at h
    exact Option.isSome_iff_exists.mp h
  rw [utf8Enc_scalars cps s hc, utf8DecR]
  have := u8Run_concat cps (scalars_all_scalar cps s hc) []
  rw [List.append_nil] at this
  rw [this]
  have : u8Run u8St0 [] = [] := rfl
  rw [this, List.append_nil, ← scalars_eq_concat cps s hc]

/-- UTF-8 bytes of a scalar value are bytes. -/
theorem encCp_lt256 {cp : Nat} (h : cp < 0x110000) : ∀ b ∈ encCp cp, b < 256 := by
  intro b hb
  unfold encCp at hb
  by_cases h1 : cp < 0x80
  · rw [if_pos h1] at hb
    simp at hb
    omega
  · rw [if_neg h1] at hb
    by_cases h2 : cp < 0x800
    · rw [if_pos h2] at hb
      simp at hb
      rcases hb with e | e <;> omega
    · rw [if_neg h2] at hb
      by_cases h3 : cp < 0x10000
      · rw [if_pos h3] at hb
        simp at hb
        rcases hb with e | e | e <;> omega
      · rw [if_neg h3] at hb
        simp at hb
        rcases hb with e | e | e | e <;> omega

/-- TextEncoder output of a well-formed string is a byte sequence. -/
theorem utf8Enc_lt256 {s : Text} (h : wfStr s = true) : ∀ b ∈ utf8Enc s, b < 256 := by
  obtain ⟨cps, hc⟩ : ∃ cps, scalars s = some cps := by
    unfold wfStr at h
    exact Option.isSome_iff_exists.mp h
  rw [utf8Enc_scalars cps s hc]
  have hall := scalars_all_scalar cps s hc
  clear hc h
  induction cps with
  | nil => intro b hb; exact absurd hb (by simp [mapConcat])
  | cons cp cps2 ih =>
    intro b hb
    simp only [mapConcat] at hb
    rcases List.mem_append.mp hb with hm | hm
    · exact encCp_lt256 (hall cp (by simp)).1 b hm
    · exact ih (fun c hc => hall c (by simp [hc])) b hm

/- ===== base64 round trip ===== -/

/-- The padding-free base64 characters of a byte sequence. -/
def b64Body : Bytes → Text
  | [] => []
  | [a] => [b64Alpha (a / 4), b64Alpha (a % 4 * 16)]
  | [a, b] => [b64Alpha (a / 4), b64Alpha (a % 4 * 16 + b / 16), b64Alpha (b % 16 * 4)]
  | a :: b :: c :: r =>
    b64Alpha (a / 4) :: b64Alpha (a % 4 * 16 + b / 16) ::
    b64Alpha (b % 16 * 4 + c / 64) :: b64Alpha (c % 64) :: b64Body r

/-- The padding characters btoa appends for a byte sequence. -/
def b64Pads : Bytes → Text
  | [] => []
  | [_] => [61, 61]
  | [_, _] => [61]
  | _ :: _ :: _ :: r => b64Pads r

/-- The sextet values of a byte sequence. -/
def b64Sex : Bytes → List Nat
  | [] => []
  | [a] => [a / 4, a % 4 * 16]
  | [a, b] => [a / 4, a % 4 * 16 + b / 16, b % 16 * 4]
  | a :: b :: c :: r =>
    a / 4 :: (a % 4 * 16 + b / 16) :: (b % 16 * 4 + c / 64) :: c % 64 :: b64Sex r

theorem toBase64Loop_split : ∀ bs : Bytes, toBase64Loop bs = b64Body bs ++ b64Pads bs := by
  intro bs
  match bs with
  | [] => rfl
  | [a] => rfl
  | [a, b] => rfl
  | a :: b :: c :: r =>
    simp only [toBase64Loop, b64Body, b64Pads, List.cons_append]
    rw [toBase64Loop_split r]

theorem b64Alpha_range (i : Nat) : b64Alpha i = 43 ∨ b64Alpha i = 47 ∨
    (48 ≤ b64Alpha i ∧ b64Alpha i ≤ 57) ∨ (65 ≤ b64Alpha i ∧ b64Alpha i ≤ 90) ∨
    (97 ≤ b64Alpha i ∧ b64Alpha i ≤ 122) := by
  unfold b64Alpha
  split_ifs <;> omega

theorem b64Alpha_not_ws (i : Nat) : isJsWs (b64Alpha i) = false ∧
    isAsciiWs (b64Alpha i) = false ∧ b64Alpha i ≠ 61 := by
  have h := b64Alpha_range i
  refine ⟨?_, ?_, by omega⟩ <;>
    (rw [Bool.eq_false_iff]
     intro hw
     first
       | (simp only [isJsWs, Bool.or_eq_true, Bool.and_eq_true, decide_eq_true_eq] at hw
          omega)
       | (simp only [isAsciiWs, Bool.or_eq_true, decide_eq_true_eq] at hw
          omega))

theorem b64Idx_alpha {i : Nat} (h : i < 64) : b64Idx (b64Alpha i) = some i := by
  unfold b64Alpha b64Idx
  split_ifs <;> simp_all <;> omega

theorem sextetsOf_append {a b : Text} {x y : List Nat} (ha : sextetsOf a = some x)
    (hb : sextetsOf b = some y) : sextetsOf (a ++ b) = some (x ++ y) := by
  induction a generalizing x with
  | nil =>
    simp only [sextetsOf, Option.some.injEq] at ha
    rw [← ha, List.nil_append, List.nil_append]
    exact hb
  | cons c r ih =>
    rw [List.cons_append]
    simp only [sextetsOf] at ha ⊢
    cases hc : b64Idx c with
    | none =>
      rw [hc] at ha
      simp at ha
    | some i =>
      cases hr : sextetsOf r with
      | none =>
        rw [hc, hr] at ha
        simp at ha
      | some is =>
        rw [hc, hr] at ha
        have ha2 : x = i :: is := by
          simpa using ha.symm
        subst ha2
        rw [ih hr]
        simp

theorem sextetsOf_body : ∀ bs : Bytes, (∀ b ∈ bs, b < 256) →
    sextetsOf (b64Body bs) = some (b64Sex bs) := by
  intro bs
  match bs with
  | [] => intro _; rfl
  | [a] =>
    intro h
    have ha : a < 256 := h a (by simp)
    simp only [b64Body, b64Sex, sextetsOf]
    rw [b64Idx_alpha (by omega), b64Idx_alpha (by omega)]
  | [a, b] =>
    intro h
    have ha : a < 256 := h a (by simp)
    have hb : b < 256 := h b (by simp)
    simp only [b64Body, b64Sex, sextetsOf]
    rw [b64Idx_alpha (by omega), b64Idx_alpha (by omega), b64Idx_alpha (by omega)]
  | a :: b :: c :: r =>
    intro h
    have ha : a < 256 := h a (by simp)
    have hb : b < 256 := h b (by simp)
    have hc : c < 256 := h c (by simp)
    have hr : ∀ x ∈ r, x < 256 := fun x hx => h x (by simp [hx])
    simp only [b64Body, b64Sex, sextetsOf]
    rw [b64Idx_alpha (by omega), b64Idx_alpha (by omega), b64Idx_alpha (by omega),
      b64Idx_alpha (by omega), sextetsOf_body r hr]

theorem quanta_sex : ∀ bs : Bytes, (∀ b ∈ bs, b < 256) → quanta (b64Sex bs) = bs := by
  intro bs
  match bs with
  | [] => intro _; rfl
  | [a] =>
    intro h
    have ha : a < 256 := h a (by simp)
    show [a / 4 * 4 + a % 4 * 16 / 16] = [a]
    simp only [List.cons.injEq, and_true]
    omega
  | [a, b] =>
    intro h
    have ha : a < 256 := h a (by simp)
    have hb : b < 256 := h b (by simp)
    show [a / 4 * 4 + (a % 4 * 16 + b / 16) / 16,
      (a % 4 * 16 + b / 16) % 16 * 16 + b % 16 * 4 / 4] = [a, b]
    simp only [List.cons.injEq, and_true]
    constructor <;> omega
  | a :: b :: c :: r =>
    intro h
    have ha : a < 256 := h a (by simp)
    have hb : b < 256 := h b (by simp)
    have hc : c < 256 := h c (by simp)
    have hr : ∀ x ∈ r, x < 256 := fun x hx => h x (by simp [hx])
    show (a / 4 * 4 + (a % 4 * 16 + b / 16) / 16) ::
      ((a % 4 * 16 + b / 16) % 16 * 16 + (b % 16 * 4 + c / 64) / 4) ::
      ((b % 16 * 4 + c / 64) % 4 * 64 + c % 64) :: quanta (b64Sex r) = a :: b :: c :: r
    rw [quanta_sex r hr]
    simp only [List.cons.injEq, and_true]
    refine ⟨by omega, by omega, by omega⟩

theorem b64Body_len : ∀ bs : Bytes, (b64Body bs).length % 4 = 0 ∨
    (b64Body bs).length % 4 = 2 ∨ (b64Body bs).length % 4 = 3 := by
  intro bs
  match bs with
  | [] => left; rfl
  | [a] => right; left; rfl
  | [a, b] => right; right; rfl
  | a :: b :: c :: r =>
    have := b64Body_len r
    simp only [b64Body, List.length_cons]
    omega

theorem b64Pads_cases : ∀ bs : Bytes, b64Pads bs = [] ∨ b64Pads bs = [61] ∨
    b64Pads bs = [61, 61] := by
  intro bs
  match bs with
  | [] => left; rfl
  | [a] => right; right; rfl
  | [a, b] => right; left; rfl
  | a :: b :: c :: r => exact b64Pads_cases r

theorem b64Body_mem : ∀ bs : Bytes, ∀ c ∈ b64Body bs, ∃ i, c = b64Alpha i := by
  intro bs
  match bs with
  | [] => intro c hc; exact absurd hc (by simp [b64Body])
  | [a] =>
    intro c hc
    simp only [b64Body, List.mem_cons, List.not_mem_nil, or_false] at hc
    rcases hc with e | e <;> exact ⟨_, e⟩
  | [a, b] =>
    intro c hc
    simp only [b64Body, List.mem_cons, List.not_mem_nil, or_false] at hc
    rcases hc with e | e | e <;> exact ⟨_, e⟩
  | a :: b :: x :: r =>
    intro c hc
    simp only [b64Body, List.mem_cons] at hc
    rcases hc with e | e | e | e | hm
    · exact ⟨_, e⟩
    · exact ⟨_, e⟩
    · exact ⟨_, e⟩
    · exact ⟨_, e⟩
    · exact b64Body_mem r c hm

theorem b64Pads_mem : ∀ bs : Bytes, ∀ c ∈ b64Pads bs, c = 61 := by
  intro bs c hc
  rcases b64Pads_cases bs with e | e | e <;> rw [e] at hc <;> simp_all

theorem stripPad_eq (s : Text) : stripPad s =
    match s.reverse with
    | c1 :: c2 :: r =>
      if c1 = 61 then (if c2 = 61 then r.reverse else (c2 :: r).reverse) else s
    | [c1] => if c1 = 61 then [] else s
    | [] => s := rfl

theorem stripPad_pads {body pads : Text} (hb : ∀ c ∈ body, c ≠ 61)
    (hp : pads = [] ∨ pads = [61] ∨ pads = [61, 61]) :
    stripPad (body ++ pads) = body := by
  rcases hp with e | e | e <;> subst e
  · rw [List.append_nil, stripPad_eq]
    match hrev : body.reverse with
    | [] => simp_all
    | [c1] =>
      have hc : c1 ∈ body := by
        have : c1 ∈ body.reverse := by rw [hrev]; simp
        simpa using this
      show (if c1 = 61 then [] else body) = body
      rw [if_neg (hb c1 hc)]
    | c1 :: c2 :: r =>
      have hc : c1 ∈ body := by
        have : c1 ∈ body.reverse := by rw [hrev]; simp
        simpa using this
      show (if c1 = 61 then (if c2 = 61 then r.reverse else (c2 :: r).reverse)
        else body) = body
      rw [if_neg (hb c1 hc)]
  · rw [stripPad_eq]
    have hscr : (body ++ [61]).reverse = 61 :: body.reverse := by simp
    rw [hscr]
    match hrev : body.reverse with
    | [] =>
      show (if (61 : Nat) = 61 then [] else body ++ [61]) = body
      rw [if_pos rfl]
      have : body = [] := by
        have := congrArg List.reverse hrev
        simpa using this
      rw [this]
    | c2 :: r =>
      have hc : c2 ∈ body := by
        have : c2 ∈ body.reverse := by rw [hrev]; simp
        simpa using this
      show (if (61 : Nat) = 61 then (if c2 = 61 then r.reverse else (c2 :: r).reverse)
        else body ++ [61]) = body
      rw [if_pos rfl, if_neg (hb c2 hc), ← hrev, List.reverse_reverse]
  · rw [stripPad_eq]
    have hscr : (body ++ [61, 61]).reverse = 61 :: 61 :: body.reverse := by simp
    rw [hscr]
    show (if (61 : Nat) = 61 then (if (61 : Nat) = 61 then body.reverse.reverse
      else (61 :: body.reverse).reverse) else body ++ [61, 61]) = body
    rw [if_pos rfl, if_pos rfl, List.reverse_reverse]

/-- atob inverts btoa on byte input. -/
theorem atob_btoa {bs : Bytes} (h : ∀ b ∈ bs, b < 256) :
    atobDecode (toBase64Loop bs) = some bs := by
  have hsplit := toBase64Loop_split bs
  have hmem : ∀ c ∈ toBase64Loop bs, isAsciiWs c = false ∧ isJsWs c = false := by
    intro c hc
    rw [hsplit] at hc
    rcases List.mem_append.mp hc with hm | hm
    · obtain ⟨i, e⟩ := b64Body_mem bs c hm
      subst e
      obtain ⟨h1, h2, _⟩ := b64Alpha_not_ws i
      exact ⟨h2, h1⟩
    · rw [b64Pads_mem bs c hm]
      exact ⟨by decide, by decide⟩
  have hfilter : (toBase64Loop bs).filter (fun c => !isAsciiWs c) = toBase64Loop bs := by
    rw [List.filter_eq_self]
    intro c hc
    rw [(hmem c hc).1]
    rfl
  have hlen : (toBase64Loop bs).length % 4 = 0 := by
    clear hsplit hmem hfilter h
    induction bs using toBase64Loop.induct with
    | case1 => rfl
    | case2 a => simp [toBase64Loop]
    | case3 a b => simp [toBase64Loop]
    | case4 a b c r ih =>
      simp only [toBase64Loop, List.length_cons]
      omega
  have hne : ∀ c ∈ b64Body bs, c ≠ 61 := by
    intro c hc
    obtain ⟨i, e⟩ := b64Body_mem bs c hc
    subst e
    exact (b64Alpha_not_ws i).2.2
  have hpad : atobPad ((toBase64Loop bs).filter (fun c => !isAsciiWs c)) = b64Body bs := by
    rw [hfilter]
    unfold atobPad
    rw [if_pos hlen, hsplit, stripPad_pads hne (b64Pads_cases bs)]
  unfold atobDecode
  rw [hpad, if_neg (by rcases b64Body_len bs with hl | hl | hl <;> omega),
    sextetsOf_body bs h]
  show some (quanta (b64Sex bs)) = some bs
  rw [quanta_sex bs h]

/-- fromBase64 inverts toBase64 on byte input. -/
theorem fromBase64_toBase64 {bs : Bytes} (h : ∀ b ∈ bs, b < 256) :
    fromBase64 (toBase64 bs) = some bs := by
  unfold fromBase64 toBase64 stripWs
  have : (toBase64Loop bs).filter (fun c => !isJsWs c) = toBase64Loop bs := by
    rw [List.filter_eq_self]
    intro c hc
    have hsplit := toBase64Loop_split bs
    rw [hsplit] at hc
    rcases List.mem_append.mp hc with hm | hm
    · obtain ⟨i, e⟩ := b64Body_mem bs c hm
      subst e
      rw [(b64Alpha_not_ws i).1]
      rfl
    · rw [b64Pads_mem bs c hm]
      rfl
  rw [this]
  exact atob_btoa h

/- ===== base64url round trip ===== -/

theorem dropTrail61 {X P : Text} (hX : ∀ c ∈ X, c ≠ 61) (hP : ∀ c ∈ P, c = 61) :
    (((X ++ P).reverse).dropWhile (fun c => c = 61)).reverse = X := by
  rw [List.reverse_append, List.dropWhile_append]
  have h1 : P.reverse.dropWhile (fun c => decide (c = 61)) = [] := by
    rw [List.dropWhile_eq_nil_iff]
    intro x hx
    simp [hP x (by simpa using hx)]
  rw [h1]
  simp only [List.isEmpty_nil, if_true]
  match hXr : X.reverse with
  | [] =>
    have : X = [] := by
      have := congrArg List.reverse hXr
      simpa using this
    simp [this]
  | c :: t =>
    have hc : c ∈ X := by
      have : c ∈ X.reverse := by rw [hXr]; simp
      simpa using this
    rw [List.dropWhile_cons, if_neg (by simp [hX c hc]), ← hXr, List.reverse_reverse]

theorem b64url_char_id (i : Nat) :
    (fun c => if c = 95 then 47 else c)
      ((fun c => if c = 45 then 43 else c)
        ((fun c => if c = 47 then 95 else c)
          ((fun c => if c = 43 then 45 else c) (b64Alpha i)))) = b64Alpha i := by
  have h := b64Alpha_range i
  simp only []
  split_ifs <;> omega

theorem b64url_char_ne61 (i : Nat) :
    (fun c => if c = 47 then 95 else c)
      ((fun c => if c = 43 then 45 else c) (b64Alpha i)) ≠ 61 := by
  have h := b64Alpha_range i
  simp only []
  split_ifs <;> omega

theorem pads_of_len : ∀ bs : Bytes,
    List.replicate ((4 - (b64Body bs).length % 4) % 4) 61 = b64Pads bs := by
  intro bs
  match bs with
  | [] => rfl
  | [a] => rfl
  | [a, b] => rfl
  | a :: b :: c :: r =>
    have e : (b64Body (a :: b :: c :: r)).length = 4 + (b64Body r).length := by
      simp [b64Body]
      omega
    rw [e]
    have e2 : (4 + (b64Body r).length) % 4 = (b64Body r).length % 4 := by omega
    rw [e2]
    exact pads_of_len r

theorem map3_id {l : Text} (hmem : ∀ c ∈ l, ∃ i, c = b64Alpha i) :
    b64urlMapped (l.map (fun c =>
      (fun c => if c = 47 then 95 else c) ((fun c => if c = 43 then 45 else c) c))) = l := by
  unfold b64urlMapped
  induction l with
  | nil => rfl
  | cons c r ih =>
    simp only [List.map_cons, List.cons.injEq]
    constructor
    · obtain ⟨i, ei⟩ := hmem c (by simp)
      subst ei
      exact b64url_char_id i
    · exact ih (fun x hx => hmem x (by simp [hx]))

/-- fromBase64Url inverts the base64url encoding chain on byte input. -/
theorem fromBase64Url_toBase64Url {bs : Bytes} (h : ∀ b ∈ bs, b < 256) :
    fromBase64Url (toBase64Url (toBase64 bs)) = some bs := by
  have hsplit := toBase64Loop_split bs
  have hne : ∀ c ∈ b64Body bs, c ≠ 61 := by
    intro c hc
    obtain ⟨i, e⟩ := b64Body_mem bs c hc
    subst e
    exact (b64Alpha_not_ws i).2.2
  have hmapped : toBase64Url (toBase64 bs) =
      (b64Body bs).map (fun c =>
        (fun c => if c = 47 then 95 else c) ((fun c => if c = 43 then 45 else c) c)) := by
    unfold toBase64Url toBase64
    rw [hsplit, List.map_append, List.map_append, List.map_map]
    have hpadmap : ((b64Pads bs).map (fun c => if c = 43 then 45 else c)).map
        (fun c => if c = 47 then 95 else c) = b64Pads bs := by
      rw [List.map_map]
      have : ∀ c ∈ b64Pads bs, ((fun c => if c = 47 then 95 else c) ∘
          (fun c => if c = 43 then 45 else c)) c = id c := by
        intro c hc
        rw [b64Pads_mem bs c hc]
        rfl
      rw [List.map_congr_left this, List.map_id]
    rw [hpadmap]
    refine dropTrail61 ?_ (b64Pads_mem bs)
    intro c hc
    rw [List.mem_map] at hc
    obtain ⟨c0, hc0, e⟩ := hc
    obtain ⟨i, ei⟩ := b64Body_mem bs c0 hc0
    subst ei
    rw [← e]
    exact b64url_char_ne61 i
  rw [hmapped]
  unfold fromBase64Url
  have e : b64urlMapped ((b64Body bs).map (fun c =>
      (fun c => if c = 47 then 95 else c) ((fun c => if c = 43 then 45 else c) c))) =
      b64Body bs := map3_id (b64Body_mem bs)
  rw [e, pads_of_len bs, ← toBase64Loop_split bs]
  exact fromBase64_toBase64 h

/- ===== rot13 involution ===== -/

theorem rot13_involution (s : Text) : rot13 (rot13 s) = s := by
  unfold rot13
  rw [List.map_map]
  have hpt : ∀ c ∈ s, ((fun c => if 65 ≤ c ∧ c ≤ 90 then (c - 65 + 13) % 26 + 65
      else if 97 ≤ c ∧ c ≤ 122 then (c - 97 + 13) % 26 + 97 else c) ∘
      (fun c => if 65 ≤ c ∧ c ≤ 90 then (c - 65 + 13) % 26 + 65
      else if 97 ≤ c ∧ c ≤ 122 then (c - 97 + 13) % 26 + 97 else c)) c = id c := by
    intro c _
    simp only [Function.comp_apply, id_eq]
    split_ifs <;> omega
  rw [List.map_congr_left hpt, List.map_id]

/- ===== hex round trip ===== -/

theorem hexDigLower_hexVal {v : Nat} (h : v < 16) : hexVal (hexDigLower v) = some v := by
  unfold hexVal hexDigLower
  by_cases hv : v < 10
  · rw [if_pos hv, if_pos (by omega)]
    simp only [Option.some.injEq]
    omega
  · rw [if_neg hv, if_neg (by omega), if_pos (by omega)]
    simp only [Option.some.injEq]
    omega

theorem hexDigLower_isHex {v : Nat} (h : v < 16) : isHexDigit (hexDigLower v) = true := by
  unfold isHexDigit
  rw [hexDigLower_hexVal h]
  rfl

theorem hexDigLower_range {v : Nat} (h : v < 16) :
    48 ≤ hexDigLower v ∧ hexDigLower v ≤ 102 := by
  unfold hexDigLower
  split_ifs <;> omega

theorem hexDigLower_not_ws {v : Nat} (h : v < 16) : isJsWs (hexDigLower v) = false := by
  have hr := hexDigLower_range h
  rw [Bool.eq_false_iff]
  intro hw
  simp only [isJsWs, Bool.or_eq_true, Bool.and_eq_true, decide_eq_true_eq] at hw
  omega

theorem mapConcat_hexPad2_mem {bs : Bytes} (h : ∀ b ∈ bs, b < 256) :
    ∀ c ∈ mapConcat hexPad2 bs, ∃ v, v < 16 ∧ c = hexDigLower v := by
  induction bs with
  | nil => intro c hc; exact absurd hc (by simp [mapConcat])
  | cons b r ih =>
    intro c hc
    simp only [mapConcat, hexPad2, List.cons_append, List.nil_append,
      List.mem_cons] at hc
    rcases hc with e | e | hm
    · exact ⟨b / 16 % 16, by omega, e⟩
    · exact ⟨b % 16, by omega, e⟩
    · exact ih (fun x hx => h x (by simp [hx])) c hm

theorem hexPairs_pad2 : ∀ bs : Bytes, (∀ b ∈ bs, b < 256) →
    hexPairs (mapConcat hexPad2 bs) = bs := by
  intro bs
  induction bs with
  | nil => intro _; rfl
  | cons b r ih =>
    intro h
    have hb : b < 256 := h b (by simp)
    have hr : ∀ x ∈ r, x < 256 := fun x hx => h x (by simp [hx])
    show hexPairs (hexDigLower (b / 16 % 16) :: hexDigLower (b % 16) ::
      mapConcat hexPad2 r) = b :: r
    unfold hexPairs
    rw [hexDigLower_hexVal (by omega), hexDigLower_hexVal (by omega), ih hr]
    simp only [Option.getD_some, List.cons.injEq, and_true]
    omega

theorem mapConcat_hexPad2_len : ∀ bs : Bytes, (mapConcat hexPad2 bs).length % 2 = 0 := by
  intro bs
  induction bs with
  | nil => rfl
  | cons b r ih =>
    show (hexPad2 b ++ mapConcat hexPad2 r).length % 2 = 0
    simp only [List.length_append, hexPad2, List.length_cons, List.length_nil]
    omega

/-- hexDecodeToU8 inverts hexEncode at the byte level. -/
theorem hexDecode_hexEncode {bs : Bytes} (h : ∀ b ∈ bs, b < 256) :
    hexDecodeToU8 (mapConcat hexPad2 bs) = some bs := by
  have hmem := mapConcat_hexPad2_mem h
  have hstrip : stripWs (mapConcat hexPad2 bs) = mapConcat hexPad2 bs := by
    unfold stripWs
    rw [List.filter_eq_self]
    intro c hc
    obtain ⟨v, hv, e⟩ := hmem c hc
    subst e
    rw [hexDigLower_not_ws hv]
    rfl
  unfold hexDecodeToU8
  rw [hstrip, if_pos ?hcond]
  case hcond =>
    constructor
    · rw [List.all_eq_true]
      intro c hc
      obtain ⟨v, hv, e⟩ := hmem c hc
      subst e
      exact hexDigLower_isHex hv
    · exact mapConcat_hexPad2_len bs
  rw [hexPairs_pad2 bs h]

/- ===== split / join machinery ===== -/

theorem splitWsAux_nil (cur : Text) (b : Bool) :
    splitWsAux [] cur b = [cur.reverse] := rfl

theorem splitWsAux_cons (c : Nat) (r cur : Text) (b : Bool) :
    splitWsAux (c :: r) cur b =
      if isJsWs c then
        (if b then splitWsAux r cur true else cur.reverse :: splitWsAux r [] true)
      else splitWsAux r (c :: cur) false := rfl

theorem splitWsAux_consume : ∀ (t : Text), t ≠ [] → (∀ c ∈ t, isJsWs c = false) →
    ∀ (S cur : Text) (b : Bool),
    splitWsAux (t ++ S) cur b = splitWsAux S (t.reverse ++ cur) false := by
  intro t
  induction t with
  | nil => intro h; exact absurd rfl h
  | cons c r ih =>
    intro _ hmem S cur b
    have hc : isJsWs c = false := hmem c (by simp)
    rw [List.cons_append, splitWsAux_cons, if_neg (by simp [hc])]
    match r with
    | [] => simp
    | d :: r2 =>
      rw [ih (by simp) (fun x hx => hmem x (by simp [hx])) S (c :: cur) false]
      congr 1
      simp

theorem joinSp_ne_nil {L : List Text} (hL : L ≠ [])
    (h : ∀ t ∈ L, t ≠ []) : joinSp L ≠ [] := by
  match L with
  | [] => exact absurd rfl hL
  | [t] =>
    show t ≠ []
    exact h t (by simp)
  | t :: t2 :: r =>
    show t ++ [0x20] ++ joinSp (t2 :: r) ≠ []
    simp

theorem splitWs_joinSp : ∀ (L : List Text), L ≠ [] →
    (∀ t ∈ L, t ≠ [] ∧ ∀ c ∈ t, isJsWs c = false) →
    ∀ b, splitWsAux (joinSp L) [] b = L := by
  intro L
  induction L with
  | nil => intro h; exact absurd rfl h
  | cons t rest ih =>
    intro _ hmem b
    obtain ⟨htne, htws⟩ := hmem t (by simp)
    match rest with
    | [] =>
      show splitWsAux t [] b = [t]
      have := splitWsAux_consume t htne htws [] [] b
      rw [List.append_nil] at this
      rw [this, splitWsAux_nil]
      simp
    | t2 :: r2 =>
      show splitWsAux (t ++ [0x20] ++ joinSp (t2 :: r2)) [] b = t :: t2 :: r2
      rw [List.append_assoc, splitWsAux_consume t htne htws _ [] b]
      have hstep : splitWsAux ([0x20] ++ joinSp (t2 :: r2)) (t.reverse ++ []) false =
          (t.reverse ++ []).reverse :: splitWsAux (joinSp (t2 :: r2)) [] true := by
        rw [List.singleton_append, splitWsAux_cons, if_pos (by decide),
          if_neg (by simp)]
      rw [hstep, ih (by simp) (fun x hx => hmem x (by simp [hx])) true]
      simp

theorem dropWhile_head_id {p : Nat → Bool} : ∀ {s : Text},
    (∀ c, s.head? = some c → p c = false) → s.dropWhile p = s := by
  intro s h
  match s with
  | [] => rfl
  | c :: r =>
    rw [List.dropWhile_cons, if_neg (by simp [h c rfl])]

theorem joinSp_head : ∀ (t : Text) (L : List Text), t ≠ [] →
    (joinSp (t :: L)).head? = t.head? := by
  intro t L htne
  match L with
  | [] => rfl
  | t2 :: r =>
    show (t ++ [0x20] ++ joinSp (t2 :: r)).head? = t.head?
    match t with
    | [] => exact absurd rfl htne
    | c :: tt => rfl

theorem joinSp_rev_head : ∀ (L : List Text), L ≠ [] →
    (∀ t ∈ L, t ≠ [] ∧ ∀ c ∈ t, isJsWs c = false) →
    ∀ c, ((joinSp L).reverse).head? = some c → isJsWs c = false := by
  intro L
  induction L with
  | nil => intro h; exact absurd rfl h
  | cons t rest ih =>
    intro _ hmem c hc
    obtain ⟨htne, htws⟩ := hmem t (by simp)
    match rest with
    | [] =>
      have : c ∈ t := by
        have : c ∈ t.reverse := List.mem_of_mem_head? hc
        simpa using this
      exact htws c this
    | t2 :: r2 =>
      have hJne : joinSp (t2 :: r2) ≠ [] :=
        joinSp_ne_nil (by simp) (fun x hx => (hmem x (by simp [hx])).1)
      have hrev : (joinSp (t :: t2 :: r2)).reverse =
          (joinSp (t2 :: r2)).reverse ++ (0x20 :: t.reverse) := by
        show (t ++ [0x20] ++ joinSp (t2 :: r2)).reverse = _
        rw [List.reverse_append, List.reverse_append]
        simp
      rw [hrev] at hc
      match hJ : (joinSp (t2 :: r2)).reverse with
      | [] =>
        exact absurd (by simpa using hJ) hJne
      | d :: dr =>
        rw [hJ] at hc
        simp only [List.cons_append, List.head?_cons, Option.some.injEq] at hc
        have hd : isJsWs d = false :=
          ih (by simp) (fun x hx => hmem x (by simp [hx])) d (by rw [hJ]; rfl)
        rw [← hc]
        exact hd

/-- The trim of a space-joined token list is itself: tokens are nonempty
and whitespace-free, so the ends are not whitespace. -/
theorem trim_joinSp {L : List Text} (hL : L ≠ [])
    (hmem : ∀ t ∈ L, t ≠ [] ∧ ∀ c ∈ t, isJsWs c = false) :
    trim (joinSp L) = joinSp L := by
  unfold trim
  have h1 : (joinSp L).dropWhile isJsWs = joinSp L := by
    refine dropWhile_head_id ?_
    intro c hc
    match L, hL with
    | t :: rest, _ =>
      obtain ⟨htne, htws⟩ := hmem t (by simp)
      rw [joinSp_head t rest htne] at hc
      exact htws c (List.mem_of_mem_head? hc)
  rw [h1]
  have h2 : (joinSp L).reverse.dropWhile isJsWs = (joinSp L).reverse := by
    refine dropWhile_head_id ?_
    intro c hc
    exact joinSp_rev_head L hL hmem c hc
  rw [h2, List.reverse_reverse]

/-- Splitting the trim of a space-joined nonempty token list restores
the tokens. -/
theorem splitWs_trim_joinSp {L : List Text} (hL : L ≠ [])
    (hmem : ∀ t ∈ L, t ≠ [] ∧ ∀ c ∈ t, isJsWs c = false) :
    splitWs (trim (joinSp L)) = L := by
  rw [trim_joinSp hL hmem]
  exact splitWs_joinSp L hL hmem false

/- ===== ascii hex / binary / octal round trips ===== -/

theorem codePoints_nosurr {s : Text} (h : ∀ c ∈ s, ¬(0xD800 ≤ c ∧ c < 0xE000)) :
    codePoints s = s := by
  match s with
  | [] => rfl
  | [c] => rfl
  | c :: d :: r =>
    have hc := h c (by simp)
    unfold codePoints
    rw [if_neg (by omega)]
    rw [codePoints_nosurr (fun x hx => h x (by simp [hx]))]

theorem takeWhile_all {p : Nat → Bool} : ∀ {s : Text}, (∀ c ∈ s, p c = true) →
    s.takeWhile p = s := by
  intro s h
  induction s with
  | nil => rfl
  | cons c r ih =>
    rw [List.takeWhile_cons, if_pos (h c (by simp)), ih (fun x hx => h x (by simp [hx]))]

theorem parseIntHex_token {ds : Text} (hne : ds ≠ [])
    (hmem : ∀ c ∈ ds, ∃ v, v < 16 ∧ c = hexDigLower v) :
    parseIntHex ds = some ((hexListVal ds : Nat) : Int) := by
  have hhead : ∀ c, ds.head? = some c → 48 ≤ c ∧ c ≤ 102 := by
    intro c hc
    obtain ⟨v, hv, e⟩ := hmem c (List.mem_of_mem_head? hc)
    subst e
    exact hexDigLower_range hv
  have hws : ds.dropWhile isJsWs = ds := by
    refine dropWhile_head_id ?_
    intro c hc
    obtain ⟨v, hv, e⟩ := hmem c (List.mem_of_mem_head? hc)
    subst e
    exact hexDigLower_not_ws hv
  have hpre : parseHexPrefix ds = ds := by
    unfold parseHexPrefix
    rw [if_neg ?hnp]
    case hnp =>
      rintro ⟨h48, hx⟩
      rcases hx with hx | hx <;>
        (obtain ⟨v, hv, e⟩ := hmem _ (List.drop_subset 1 ds (List.mem_of_mem_head? hx))
         have := hexDigLower_range hv
         unfold hexDigLower at e
         split_ifs at e <;> omega)
  have hrun : parseHexRun ds = some (hexListVal ds) := by
    unfold parseHexRun
    have htw : ds.takeWhile isHexDigit = ds := by
      refine takeWhile_all ?_
      intro c hc
      obtain ⟨v, hv, e⟩ := hmem c hc
      subst e
      exact hexDigLower_isHex hv
    rw [htw, if_neg hne]
  unfold parseIntHex
  rw [hws, if_neg ?h45, if_neg ?h43, hpre, hrun]
  case h45 =>
    intro hc
    have := hhead 45 hc
    omega
  case h43 =>
    intro hc
    have := hhead 43 hc
    omega
  rfl

theorem toUint16_small {v : Nat} (h : v < 65536) : toUint16 (some ((v : Nat) : Int)) = v := by
  show ((v : Int) % 65536).toNat = v
  omega

theorem hexPadStart2_mem {v : Nat} (h : v < 0x10000) :
    ∀ c ∈ hexPadStart2 v, ∃ w, w < 16 ∧ c = hexDigLower w := by
  intro c hc
  unfold hexPadStart2 hexPad2 hexPad4 at hc
  by_cases h1 : v < 0x100
  · rw [if_pos h1] at hc
    simp only [List.mem_cons, List.not_mem_nil, or_false] at hc
    rcases hc with e | e <;> exact ⟨_, by omega, e⟩
  · by_cases h2 : v < 0x1000
    · rw [if_neg h1, if_pos h2] at hc
      simp only [List.mem_cons, List.not_mem_nil, or_false] at hc
      rcases hc with e | e | e <;> exact ⟨_, by omega, e⟩
    · rw [if_neg h1, if_neg h2] at hc
      simp only [List.mem_cons, List.not_mem_nil, or_false] at hc
      rcases hc with e | e | e | e <;> exact ⟨_, by omega, e⟩

theorem hexPadStart2_ne_nil (v : Nat) : hexPadStart2 v ≠ [] := by
  unfold hexPadStart2 hexPad2 hexPad4
  split_ifs <;> simp

theorem hexListVal_hexPadStart2 {v : Nat} (h : v < 0x10000) :
    hexListVal (hexPadStart2 v) = v := by
  unfold hexPadStart2
  by_cases h1 : v < 0x100
  · rw [if_pos h1]
    show hexListVal [hexDigLower (v / 16 % 16), hexDigLower (v % 16)] = v
    unfold hexListVal
    simp only [List.foldl_cons, List.foldl_nil]
    rw [hexDigLower_hexVal (by omega), hexDigLower_hexVal (by omega)]
    simp only [Option.getD_some]
    omega
  · by_cases h2 : v < 0x1000
    · rw [if_neg h1, if_pos h2]
      show hexListVal [hexDigLower (v / 256 % 16), hexDigLower (v / 16 % 16),
        hexDigLower (v % 16)] = v
      unfold hexListVal
      simp only [List.foldl_cons, List.foldl_nil]
      rw [hexDigLower_hexVal (by omega), hexDigLower_hexVal (by omega),
        hexDigLower_hexVal (by omega)]
      simp only [Option.getD_some]
      omega
    · rw [if_neg h1, if_neg h2]
      show hexListVal [hexDigLower (v / 4096 % 16), hexDigLower (v / 256 % 16),
        hexDigLower (v / 16 % 16), hexDigLower (v % 16)] = v
      unfold hexListVal
      simp only [List.foldl_cons, List.foldl_nil]
      rw [hexDigLower_hexVal (by omega), hexDigLower_hexVal (by omega),
        hexDigLower_hexVal (by omega), hexDigLower_hexVal (by omega)]
      simp only [Option.getD_some]
      omega

/-- asciiHexDecode inverts asciiHexEncode on nonempty strings whose code
units are below 0x10000 and contain no surrogate. -/
theorem asciiHex_roundtrip {s : Text} (hne : s ≠ [])
    (hlt : ∀ c ∈ s, c < 0x10000) (hns : ∀ c ∈ s, ¬(0xD800 ≤ c ∧ c < 0xE000)) :
    asciiHexDecode (asciiHexEncode s) = s := by
  unfold asciiHexEncode asciiHexDecode
  rw [codePoints_nosurr hns]
  have hfcu : s.map (fun cp => hexPadStart2 (firstCU cp)) =
      s.map (fun cp => hexPadStart2 cp) := by
    refine List.map_congr_left ?_
    intro c hc
    unfold firstCU
    rw [if_pos (hlt c hc)]
  rw [hfcu]
  have hLne : s.map (fun cp => hexPadStart2 cp) ≠ [] := by
    simpa using hne
  have hLmem : ∀ t ∈ s.map (fun cp => hexPadStart2 cp), t ≠ [] ∧
      ∀ c ∈ t, isJsWs c = false := by
    intro t ht
    rw [List.mem_map] at ht
    obtain ⟨cp, hcp, e⟩ := ht
    subst e
    refine ⟨hexPadStart2_ne_nil cp, ?_⟩
    intro c hc
    obtain ⟨w, hw, ew⟩ := hexPadStart2_mem (hlt cp hcp) c hc
    subst ew
    exact hexDigLower_not_ws hw
  rw [splitWs_trim_joinSp hLne hLmem, List.map_map]
  have : ∀ c ∈ s, ((fun t => toUint16 (parseIntHex t)) ∘
      (fun cp => hexPadStart2 cp)) c = id c := by
    intro c hc
    simp only [Function.comp_apply, id_eq]
    rw [parseIntHex_token (hexPadStart2_ne_nil c) (hexPadStart2_mem (hlt c hc)),
      hexListVal_hexPadStart2 (hlt c hc)]
    exact toUint16_small (hlt c hc)
  rw [List.map_congr_left this, List.map_id]

theorem encCp_ne_nil (cp : Nat) : encCp cp ≠ [] := by
  unfold encCp
  split_ifs <;> simp

theorem utf8Enc_ne_nil : ∀ {s : Text}, s ≠ [] → utf8Enc s ≠ [] := by
  intro s hne
  match s with
  | [c] =>
    unfold utf8Enc
    split_ifs <;> exact encCp_ne_nil _
  | c :: d :: r =>
    unfold utf8Enc
    split_ifs <;> simp [encCp_ne_nil]

theorem binPad8_spec {b : Nat} (h : b < 256) :
    binPad8 b ≠ [] ∧ (binPad8 b).length = 8 ∧
    (∀ c ∈ binPad8 b, (c = 48 ∨ c = 49) ∧ isJsWs c = false) ∧
    (binPad8 b).foldl (fun a c => a * 2 + (c - 48)) 0 = b := by
  have hbit : ∀ k : Nat, b / k % 2 = 0 ∨ b / k % 2 = 1 := fun k => by omega
  refine ⟨by simp [binPad8], by simp [binPad8], ?_, ?_⟩
  · intro c hc
    simp only [binPad8, List.mem_cons, List.not_mem_nil, or_false] at hc
    have hws : ∀ x : Nat, x = 48 ∨ x = 49 → (x = 48 ∨ x = 49) ∧ isJsWs x = false := by
      intro x hx
      refine ⟨hx, ?_⟩
      rw [Bool.eq_false_iff]
      intro hw
      simp only [isJsWs, Bool.or_eq_true, Bool.and_eq_true, decide_eq_true_eq] at hw
      omega
    rcases hc with e | e | e | e | e | e | e | e <;> subst e <;> exact hws _ (by omega)
  · simp only [binPad8, List.foldl_cons, List.foldl_nil]
    omega

theorem binTok_all {b : Nat} (h : b < 256) :
    ((binPad8 b).length = 8 && (binPad8 b).all (fun c => c = 48 || c = 49)) = true := by
  obtain ⟨_, hlen, hmem, _⟩ := binPad8_spec h
  rw [Bool.and_eq_true]
  constructor
  · simp [hlen]
  · rw [List.all_eq_true]
    intro c hc
    rcases (hmem c hc).1 with e | e <;> simp [e]

/-- binaryDecodeU8 inverts binaryEncode at the byte level. -/
theorem binaryDecode_encode {bs : Bytes} (hne : bs ≠ []) (h : ∀ b ∈ bs, b < 256) :
    binaryDecodeU8 (joinSp (bs.map binPad8)) = some bs := by
  unfold binaryDecodeU8
  have hLne : bs.map binPad8 ≠ [] := by simpa using hne
  have hLmem : ∀ t ∈ bs.map binPad8, t ≠ [] ∧ ∀ c ∈ t, isJsWs c = false := by
    intro t ht
    rw [List.mem_map] at ht
    obtain ⟨b, hb, e⟩ := ht
    subst e
    obtain ⟨h1, _, hmem, _⟩ := binPad8_spec (h b hb)
    exact ⟨h1, fun c hc => (hmem c hc).2⟩
  rw [splitWs_trim_joinSp hLne hLmem, if_pos ?hall]
  case hall =>
    rw [List.all_eq_true]
    intro t ht
    rw [List.mem_map] at ht
    obtain ⟨b, hb, e⟩ := ht
    subst e
    exact binTok_all (h b hb)
  rw [List.map_map]
  have : ∀ b ∈ bs, ((fun p => p.foldl (fun a c => a * 2 + (c - 48)) 0 % 256) ∘
      binPad8) b = id b := by
    intro b hb
    simp only [Function.comp_apply, id_eq]
    rw [(binPad8_spec (h b hb)).2.2.2]
    have := h b hb
    omega
  rw [List.map_congr_left this, List.map_id]

theorem octPad3_spec {b : Nat} (h : b < 256) :
    octPad3 b ≠ [] ∧ (octPad3 b).length = 3 ∧
    (∀ c ∈ octPad3 b, (48 ≤ c ∧ c ≤ 55) ∧ isJsWs c = false) ∧
    (octPad3 b).foldl (fun a c => a * 8 + (c - 48)) 0 = b := by
  refine ⟨by simp [octPad3], by simp [octPad3], ?_, ?_⟩
  · intro c hc
    simp only [octPad3, List.mem_cons, List.not_mem_nil, or_false] at hc
    have hws : ∀ x : Nat, 48 ≤ x ∧ x ≤ 55 → (48 ≤ x ∧ x ≤ 55) ∧ isJsWs x = false := by
      intro x hx
      refine ⟨hx, ?_⟩
      rw [Bool.eq_false_iff]
      intro hw
      simp only [isJsWs, Bool.or_eq_true, Bool.and_eq_true, decide_eq_true_eq] at hw
      omega
    rcases hc with e | e | e <;> subst e <;> exact hws _ (by omega)
  · simp only [octPad3, List.foldl_cons, List.foldl_nil]
    omega

theorem octTok_all {b : Nat} (h : b < 256) :
    (decide (1 ≤ (octPad3 b).length) && decide ((octPad3 b).length ≤ 3) &&
      (octPad3 b).all (fun c => 48 ≤ c && c ≤ 55)) = true := by
  obtain ⟨_, hlen, hmem, _⟩ := octPad3_spec h
  rw [Bool.and_eq_true, Bool.and_eq_true]
  refine ⟨⟨by simp [hlen], by simp [hlen]⟩, ?_⟩
  rw [List.all_eq_true]
  intro c hc
  obtain ⟨⟨h1, h2⟩, _⟩ := hmem c hc
  simp [h1, h2]

/-- octalDecodeU8 inverts octalEncode at the byte level. -/
theorem octalDecode_encode {bs : Bytes} (hne : bs ≠ []) (h : ∀ b ∈ bs, b < 256) :
    octalDecodeU8 (joinSp (bs.map octPad3)) = some bs := by
  unfold octalDecodeU8
  have hLne : bs.map octPad3 ≠ [] := by simpa using hne
  have hLmem : ∀ t ∈ bs.map octPad3, t ≠ [] ∧ ∀ c ∈ t, isJsWs c = false := by
    intro t ht
    rw [List.mem_map] at ht
    obtain ⟨b, hb, e⟩ := ht
    subst e
    obtain ⟨h1, _, hmem, _⟩ := octPad3_spec (h b hb)
    exact ⟨h1, fun c hc => (hmem c hc).2⟩
  rw [splitWs_trim_joinSp hLne hLmem, if_pos ?hall]
  case hall =>
    rw [List.all_eq_true]
    intro t ht
    rw [List.mem_map] at ht
    obtain ⟨b, hb, e⟩ := ht
    subst e
    exact octTok_all (h b hb)
  rw [List.map_map]
  have : ∀ b ∈ bs, ((fun p => p.foldl (fun a c => a * 8 + (c - 48)) 0 % 256) ∘
      octPad3) b = id b := by
    intro b hb
    simp only [Function.comp_apply, id_eq]
    rw [(octPad3_spec (h b hb)).2.2.2]
    have := h b hb
    omega
  rw [List.map_congr_left this, List.map_id]

/- ===== URI percent round trip ===== -/

theorem hexVal_hexDigUpper {v : Nat} (h : v < 16) : hexVal (hexDigUpper v) = some v := by
  unfold hexVal hexDigUpper
  by_cases hv : v < 10
  · rw [if_pos hv, if_pos (by omega)]
    simp only [Option.some.injEq]
    omega
  · rw [if_neg hv, if_neg (by omega), if_neg (by omega), if_pos (by omega)]
    simp only [Option.some.injEq]
    omega

theorem uriUnreserved_lt {c : Nat} (h : uriUnreserved c = true) : c < 0x80 := by
  simp only [uriUnreserved, isAsciiLetter, isDigitCh, Bool.or_eq_true,
    Bool.and_eq_true, decide_eq_true_eq] at h
  omega

/-- The per-scalar output of encodeURIComponent. -/
def encCU1 (cp : Nat) : Text := if uriUnreserved cp then [cp] else pctUtf8 cp

theorem encURIComp_cuOfCp {cp : Nat} (h : IsScalar cp) (s2 : Text) :
    encURIComp (cuOfCp cp ++ s2) = (encURIComp s2).map (fun t => encCU1 cp ++ t) := by
  obtain ⟨hlt, hns⟩ := h
  by_cases hb : cp < 0x10000
  · rw [cuOfCp_bmp hb]
    unfold encCU1
    by_cases hu : uriUnreserved cp = true
    · match s2 with
      | [] =>
        show encURIComp [cp] = _
        conv_lhs => unfold encURIComp
        rw [if_pos hu, if_pos hu]
        try first | rfl | simp [encURIComp]
      | d :: r =>
        show encURIComp (cp :: d :: r) = _
        conv_lhs => unfold encURIComp
        rw [if_pos hu, if_pos hu]
        try first | rfl | simp [encURIComp]
    · match s2 with
      | [] =>
        show encURIComp [cp] = _
        conv_lhs => unfold encURIComp
        rw [if_neg hu, if_pos (by omega), if_neg hu]
        try first | rfl | simp [encURIComp]
      | d :: r =>
        show encURIComp (cp :: d :: r) = _
        conv_lhs => unfold encURIComp
        rw [if_neg hu, if_pos (by omega), if_neg hu]
        try first | rfl | simp [encURIComp]
  · have hhi : ¬uriUnreserved (0xD800 + (cp - 0x10000) / 0x400) = true := by
      intro hu
      have := uriUnreserved_lt hu
      omega
    have hq : (cp - 0x10000) / 0x400 < 0x400 := by omega
    have hm : (cp - 0x10000) % 0x400 < 0x400 := Nat.mod_lt _ (by omega)
    unfold cuOfCp
    rw [if_neg (by omega)]
    show encURIComp ((0xD800 + (cp - 0x10000) / 0x400) ::
      (0xDC00 + (cp - 0x10000) % 0x400) :: s2) = _
    conv_lhs => unfold encURIComp
    rw [if_neg hhi, if_neg (by omega), if_pos (by omega), if_pos (by omega)]
    unfold encCU1
    rw [if_neg (by intro hu; exact absurd (uriUnreserved_lt hu) (by omega))]
    have e : 0x10000 + (0xD800 + (cp - 0x10000) / 0x400 - 0xD800) * 0x400 +
        (0xDC00 + (cp - 0x10000) % 0x400 - 0xDC00) = cp := by
      have := Nat.div_add_mod (cp - 0x10000) 0x400
      omega
    rw [e]

theorem encURIComp_scalars : ∀ (cps : List Nat) (s : Text), scalars s = some cps →
    encURIComp s = some (mapConcat encCU1 cps) := by
  intro cps
  induction cps with
  | nil =>
    intro s h
    rcases scalars_struct h with ⟨he, _⟩ | ⟨cp, cps2, s2, hc, _, _, _⟩
    · rw [he]; rfl
    · exact absurd hc (by simp)
  | cons cp cps2 ih =>
    intro s h
    rcases scalars_struct h with ⟨_, he⟩ | ⟨cp2, cps3, s2, hc, hs, hsc, hval⟩
    · exact absurd he (by simp)
    · obtain ⟨e1, e2⟩ : cp2 = cp ∧ cps3 = cps2 := by constructor <;> simp_all
      subst e1 e2 hs
      rw [encURIComp_cuOfCp hval, ih s2 hsc]
      rfl

theorem encURIComp_isSome {s : Text} (h : wfStr s = true) :
    (encURIComp s).isSome = true := by
  obtain ⟨cps, hc⟩ : ∃ cps, scalars s = some cps := Option.isSome_iff_exists.mp h
  rw [encURIComp_scalars cps s hc]
  rfl

theorem uriRun_cons_pair {st : UriSt} {c : Nat} {out : Text} {st2 : UriSt} (r : Text)
    (h : uriStep st c = some (out, st2)) :
    uriRun st (c :: r) = (uriRun st2 r).map (fun t => out ++ t) := by
  show (match uriStep st c with
    | some p => (uriRun p.2 r).map (fun t => p.1 ++ t)
    | none => none) = _
  rw [h]

theorem uriStep_pct (pa : Nat) (u : U8St) :
    uriStep ⟨0, pa, u⟩ 37 = some ([], ⟨1, 0, u⟩) := by
  simp [uriStep]

theorem uriStep_plain {c : Nat} (hc : ¬c = 37) (pa : Nat) {u : U8St}
    (hu : u.needed = 0) :
    uriStep ⟨0, pa, u⟩ c = some ([c], ⟨0, pa, u⟩) := by
  simp [uriStep, hc, hu]

theorem uriStep_hex1 {c a : Nat} (e : hexVal c = some a) (pa : Nat) (u : U8St) :
    uriStep ⟨1, pa, u⟩ c = some ([], ⟨2, a, u⟩) := by
  simp [uriStep, e]

theorem uriStep_hex2 {c b : Nat} (e : hexVal c = some b) (pa : Nat) (u : U8St) :
    uriStep ⟨2, pa, u⟩ c =
      (uriByte u (pa * 16 + b)).map (fun p => (p.1, ⟨0, 0, p.2⟩)) := by
  simp [uriStep, e]

/-- Scanning one percent escape of a byte advances the Decode scan by
one strict UTF-8 byte step. -/
theorem uriRun_triple {B : Nat} {u1 u2 : U8St} {ot : Text}
    (hB : B < 256) (hby : uriByte u1 B = some (ot, u2)) (R : Text) :
    uriRun ⟨0, 0, u1⟩ (37 :: hexDigUpper (B / 16) :: hexDigUpper (B % 16) :: R) =
      (uriRun ⟨0, 0, u2⟩ R).map (fun t => ot ++ t) := by
  have hstep : uriStep ⟨2, B / 16, u1⟩ (hexDigUpper (B % 16)) =
      some (ot, ⟨0, 0, u2⟩) := by
    rw [uriStep_hex2 (hexVal_hexDigUpper (by omega)) (B / 16) u1]
    have e : B / 16 * 16 + B % 16 = B := by omega
    rw [e, hby]
    rfl
  rw [uriRun_cons_pair _ (uriStep_pct 0 u1),
    uriRun_cons_pair _ (uriStep_hex1 (hexVal_hexDigUpper (by omega)) 0 u1),
    uriRun_cons_pair R hstep]
  simp only [Option.map_map]
  rfl

theorem uriByte_ascii {B : Nat} (h : B < 0x80) :
    uriByte u8St0 B = some ([B], u8St0) := by
  simp [uriByte, u8St0, h]

theorem uriByte_lead2 {B : Nat} (h1 : 0xC2 ≤ B) (h2 : B ≤ 0xDF) :
    uriByte u8St0 B = some ([], ⟨1, B - 0xC0, 0x80, 0xBF⟩) := by
  simp only [uriByte, u8St0, if_true]
  rw [if_neg (by omega), if_pos (by omega)]

theorem uriByte_lead3 {B : Nat} (h1 : 0xE0 ≤ B) (h2 : B ≤ 0xEF) :
    uriByte u8St0 B = some ([], ⟨2, B - 0xE0, if B = 0xE0 then 0xA0 else 0x80,
      if B = 0xED then 0x9F else 0xBF⟩) := by
  simp only [uriByte, u8St0, if_true]
  rw [if_neg (by omega), if_neg (by omega), if_pos (by omega)]

theorem uriByte_lead4 {B : Nat} (h1 : 0xF0 ≤ B) (h2 : B ≤ 0xF4) :
    uriByte u8St0 B = some ([], ⟨3, B - 0xF0, if B = 0xF0 then 0x90 else 0x80,
      if B = 0xF4 then 0x8F else 0xBF⟩) := by
  simp only [uriByte, u8St0, if_true]
  rw [if_neg (by omega), if_neg (by omega), if_neg (by omega), if_pos (by omega)]

theorem uriByte_cont_done {v lo hi B : Nat} (h : lo ≤ B ∧ B ≤ hi) :
    uriByte ⟨1, v, lo, hi⟩ B = some (cuOfCp (v * 64 + (B - 0x80)), u8St0) := by
  simp [uriByte, u8St0, h]

theorem uriByte_cont_more {n v lo hi B : Nat} (h : lo ≤ B ∧ B ≤ hi) (hn : 2 ≤ n) :
    uriByte ⟨n, v, lo, hi⟩ B = some ([], ⟨n - 1, v * 64 + (B - 0x80), 0x80, 0xBF⟩) := by
  simp only [uriByte]
  rw [if_neg (by omega), if_pos h, if_neg (by omega)]

/-- Scanning the percent escapes of one scalar value emits its code
units and returns the Decode scan to the initial state. -/
theorem uriRun_pctUtf8 {cp : Nat} (h : IsScalar cp) (R : Text) :
    uriRun uriSt0 (pctUtf8 cp ++ R) =
      (uriRun uriSt0 R).map (fun t => cuOfCp cp ++ t) := by
  obtain ⟨hlt, hns⟩ := h
  by_cases h1 : cp < 0x80
  · have hp : pctUtf8 cp = [37, hexDigUpper (cp / 16), hexDigUpper (cp % 16)] := by
      unfold pctUtf8 encCp
      rw [if_pos h1]
      simp [mapConcat]
    rw [hp]
    show uriRun ⟨0, 0, u8St0⟩ (37 :: hexDigUpper (cp / 16) :: hexDigUpper (cp % 16) :: R) = _
    rw [uriRun_triple (by omega) (uriByte_ascii h1) R, cuOfCp_bmp (by omega)]
    rfl
  · by_cases h2 : cp < 0x800
    · have hp : pctUtf8 cp = 37 :: hexDigUpper ((0xC0 + cp / 64) / 16) ::
          hexDigUpper ((0xC0 + cp / 64) % 16) :: 37 :: hexDigUpper ((0x80 + cp % 64) / 16) ::
          hexDigUpper ((0x80 + cp % 64) % 16) :: [] := by
        unfold pctUtf8 encCp
        rw [if_neg h1, if_pos h2]
        simp [mapConcat]
      rw [hp]
      have e2 : uriByte ⟨1, cp / 64, 0x80, 0xBF⟩ (0x80 + cp % 64) =
          some (cuOfCp cp, u8St0) := by
        rw [uriByte_cont_done (by omega)]
        have : cp / 64 * 64 + (0x80 + cp % 64 - 0x80) = cp := by omega
        rw [this]
      have e1 : uriByte u8St0 (0xC0 + cp / 64) = some ([], ⟨1, cp / 64, 0x80, 0xBF⟩) := by
        rw [uriByte_lead2 (by omega) (by omega)]
        have : 0xC0 + cp / 64 - 0xC0 = cp / 64 := by omega
        rw [this]
      show uriRun ⟨0, 0, u8St0⟩ (37 :: hexDigUpper ((0xC0 + cp / 64) / 16) ::
        hexDigUpper ((0xC0 + cp / 64) % 16) :: (37 :: hexDigUpper ((0x80 + cp % 64) / 16) ::
        hexDigUpper ((0x80 + cp % 64) % 16) :: R)) = _
      rw [uriRun_triple (by omega) e1, uriRun_triple (by omega) e2]
      simp [Option.map_map]
      rfl
    · by_cases h3 : cp < 0x10000
      · have hp : pctUtf8 cp = 37 :: hexDigUpper ((0xE0 + cp / 4096) / 16) ::
            hexDigUpper ((0xE0 + cp / 4096) % 16) ::
            37 :: hexDigUpper ((0x80 + cp / 64 % 64) / 16) ::
            hexDigUpper ((0x80 + cp / 64 % 64) % 16) ::
            37 :: hexDigUpper ((0x80 + cp % 64) / 16) ::
            hexDigUpper ((0x80 + cp % 64) % 16) :: [] := by
          unfold pctUtf8 encCp
          rw [if_neg h1, if_neg h2, if_pos h3]
          simp [mapConcat]
        rw [hp]
        have e1 : uriByte u8St0 (0xE0 + cp / 4096) = some ([], ⟨2, cp / 4096,
            if 0xE0 + cp / 4096 = 0xE0 then 0xA0 else 0x80,
            if 0xE0 + cp / 4096 = 0xED then 0x9F else 0xBF⟩) := by
          rw [uriByte_lead3 (by omega) (by omega)]
          have : 0xE0 + cp / 4096 - 0xE0 = cp / 4096 := by omega
          rw [this]
        have hb2 : (if 0xE0 + cp / 4096 = 0xE0 then 0xA0 else 0x80) ≤
              0x80 + cp / 64 % 64 ∧
            0x80 + cp / 64 % 64 ≤ (if 0xE0 + cp / 4096 = 0xED then 0x9F else 0xBF) := by
          by_cases hE : cp / 4096 = 0
          · rw [if_pos (by omega), if_neg (by omega)]
            omega
          · by_cases hD : cp / 4096 = 13
            · rw [if_neg (by omega), if_pos (by omega)]
              omega
            · rw [if_neg (by omega), if_neg (by omega)]
              omega
        have e2 : uriByte ⟨2, cp / 4096,
              if 0xE0 + cp / 4096 = 0xE0 then 0xA0 else 0x80,
              if 0xE0 + cp / 4096 = 0xED then 0x9F else 0xBF⟩ (0x80 + cp / 64 % 64) =
            some ([], ⟨1, cp / 4096 * 64 + cp / 64 % 64, 0x80, 0xBF⟩) := by
          rw [uriByte_cont_more hb2 (by omega)]
          have : 0x80 + cp / 64 % 64 - 0x80 = cp / 64 % 64 := by omega
          rw [this]
        have e3 : uriByte ⟨1, cp / 4096 * 64 + cp / 64 % 64, 0x80, 0xBF⟩
            (0x80 + cp % 64) = some (cuOfCp cp, u8St0) := by
          rw [uriByte_cont_done (by omega)]
          have : (cp / 4096 * 64 + cp / 64 % 64) * 64 + (0x80 + cp % 64 - 0x80) = cp := by
            omega
          rw [this]
        show uriRun ⟨0, 0, u8St0⟩ (37 :: hexDigUpper ((0xE0 + cp / 4096) / 16) ::
          hexDigUpper ((0xE0 + cp / 4096) % 16) ::
          (37 :: hexDigUpper ((0x80 + cp / 64 % 64) / 16) ::
          hexDigUpper ((0x80 + cp / 64 % 64) % 16) ::
          (37 :: hexDigUpper ((0x80 + cp % 64) / 16) ::
          hexDigUpper ((0x80 + cp % 64) % 16) :: R))) = _
        rw [uriRun_triple (by omega) e1, uriRun_triple (by omega) e2,
          uriRun_triple (by omega) e3]
        simp [Option.map_map]
        rfl
      · have hp : pctUtf8 cp = 37 :: hexDigUpper ((0xF0 + cp / 262144) / 16) ::
            hexDigUpper ((0xF0 + cp / 262144) % 16) ::
            37 :: hexDigUpper ((0x80 + cp / 4096 % 64) / 16) ::
            hexDigUpper ((0x80 + cp / 4096 % 64) % 16) ::
            37 :: hexDigUpper ((0x80 + cp / 64 % 64) / 16) ::
            hexDigUpper ((0x80 + cp / 64 % 64) % 16) ::
            37 :: hexDigUpper ((0x80 + cp % 64) / 16) ::
            hexDigUpper ((0x80 + cp % 64) % 16) :: [] := by
          unfold pctUtf8 encCp
          rw [if_neg h1, if_neg h2, if_neg h3]
          simp [mapConcat]
        rw [hp]
        have e1 : uriByte u8St0 (0xF0 + cp / 262144) = some ([], ⟨3, cp / 262144,
            if 0xF0 + cp / 262144 = 0xF0 then 0x90 else 0x80,
            if 0xF0 + cp / 262144 = 0xF4 then 0x8F else 0xBF⟩) := by
          rw [uriByte_lead4 (by omega) (by omega)]
          have : 0xF0 + cp / 262144 - 0xF0 = cp / 262144 := by omega
          rw [this]
        have hb2 : (if 0xF0 + cp / 262144 = 0xF0 then 0x90 else 0x80) ≤
              0x80 + cp / 4096 % 64 ∧
            0x80 + cp / 4096 % 64 ≤
              (if 0xF0 + cp / 262144 = 0xF4 then 0x8F else 0xBF) := by
          by_cases hE : cp / 262144 = 0
          · rw [if_pos (by omega), if_neg (by omega)]
            omega
          · by_cases hD : cp / 262144 = 4
            · rw [if_neg (by omega), if_pos (by omega)]
              omega
            · rw [if_neg (by omega), if_neg (by omega)]
              omega
        have e2 : uriByte ⟨3, cp / 262144,
              if 0xF0 + cp / 262144 = 0xF0 then 0x90 else 0x80,
              if 0xF0 + cp / 262144 = 0xF4 then 0x8F else 0xBF⟩ (0x80 + cp / 4096 % 64) =
            some ([], ⟨2, cp / 262144 * 64 + cp / 4096 % 64, 0x80, 0xBF⟩) := by
          rw [uriByte_cont_more hb2 (by omega)]
          have : 0x80 + cp / 4096 % 64 - 0x80 = cp / 4096 % 64 := by omega
          rw [this]
        have e3 : uriByte ⟨2, cp / 262144 * 64 + cp / 4096 % 64, 0x80, 0xBF⟩
            (0x80 + cp / 64 % 64) =
            some ([], ⟨1, (cp / 262144 * 64 + cp / 4096 % 64) * 64 + cp / 64 % 64,
              0x80, 0xBF⟩) := by
          rw [uriByte_cont_more (by omega) (by omega)]
          have : 0x80 + cp / 64 % 64 - 0x80 = cp / 64 % 64 := by omega
          rw [this]
        have e4 : uriByte ⟨1, (cp / 262144 * 64 + cp / 4096 % 64) * 64 + cp / 64 % 64,
              0x80, 0xBF⟩ (0x80 + cp % 64) = some (cuOfCp cp, u8St0) := by
          rw [uriByte_cont_done (by omega)]
          have : ((cp / 262144 * 64 + cp / 4096 % 64) * 64 + cp / 64 % 64) * 64 +
              (0x80 + cp % 64 - 0x80) = cp := by omega
          rw [this]
        show uriRun ⟨0, 0, u8St0⟩ (37 :: hexDigUpper ((0xF0 + cp / 262144) / 16) ::
          hexDigUpper ((0xF0 + cp / 262144) % 16) ::
          (37 :: hexDigUpper ((0x80 + cp / 4096 % 64) / 16) ::
          hexDigUpper ((0x80 + cp / 4096 % 64) % 16) ::
          (37 :: hexDigUpper ((0x80 + cp / 64 % 64) / 16) ::
          hexDigUpper ((0x80 + cp / 64 % 64) % 16) ::
          (37 :: hexDigUpper ((0x80 + cp % 64) / 16) ::
          hexDigUpper ((0x80 + cp % 64) % 16) :: R)))) = _
        rw [uriRun_triple (by omega) e1, uriRun_triple (by omega) e2,
          uriRun_triple (by omega) e3, uriRun_triple (by omega) e4]
        simp [Option.map_map]
        rfl

/-- Scanning one encoded code point (kept plain when unreserved,
percent-encoded otherwise) emits its code units and returns to the
initial state. -/
theorem uriRun_encCU1 {cp : Nat} (h : IsScalar cp) (R : Text) :
    uriRun uriSt0 (encCU1 cp ++ R) =
      (uriRun uriSt0 R).map (fun t => cuOfCp cp ++ t) := by
  unfold encCU1
  by_cases hu : uriUnreserved cp = true
  · rw [if_pos hu]
    have hlt := uriUnreserved_lt hu
    have h37 : ¬cp = 37 := by
      intro he
      rw [he] at hu
      exact absurd hu (by decide)
    show uriRun ⟨0, 0, u8St0⟩ (cp :: R) =
      Option.map (fun t => cuOfCp cp ++ t) (uriRun uriSt0 R)
    rw [uriRun_cons_pair R (uriStep_plain h37 0 (u := u8St0) rfl),
      cuOfCp_bmp (by omega)]
    rfl
  · rw [if_neg hu]
    exact uriRun_pctUtf8 h R

/-- Decode inverts the concatenation of encoded code points. -/
theorem uriRun_encCU1_concat : ∀ (cps : List Nat), (∀ cp ∈ cps, IsScalar cp) →
    uriRun uriSt0 (mapConcat encCU1 cps) = some (mapConcat cuOfCp cps) := by
  intro cps
  induction cps with
  | nil => intro _; rfl
  | cons cp rest ih =>
    intro hall
    show uriRun uriSt0 (encCU1 cp ++ mapConcat encCU1 rest) = _
    rw [uriRun_encCU1 (hall cp (by simp)) _,
      ih (fun c hc => hall c (by simp [hc]))]
    rfl

/-- decodeURIComponent inverts encodeURIComponent on every well-formed
string. -/
theorem decURIComp_encURIComp {s : Text} (h : wfStr s = true) :
    ∃ e, encURIComp s = some e ∧ decURIComp e = some s := by
  unfold wfStr at h
  cases hc : scalars s with
  | none => rw [hc] at h; exact absurd h (by simp)
  | some cps =>
    refine ⟨mapConcat encCU1 cps, encURIComp_scalars cps s hc, ?_⟩
    unfold decURIComp
    rw [uriRun_encCU1_concat cps (scalars_all_scalar cps s hc),
      ← scalars_eq_concat cps s hc]

/- ===== form-url round trip ===== -/

/-- One code point of the formUrl encoding: a space becomes a plus sign,
anything else is as in encodeURIComponent. -/
def fCU1 (cp : Nat) : Text := if cp = 32 then [43] else encCU1 cp

/-- One code point of the formUrl encoding after the plus-to-space
replace of the decoder: a space is back to a literal space. -/
def gCU1 (cp : Nat) : Text := if cp = 32 then [32] else encCU1 cp

theorem mapConcat_mem {f : Nat → List Nat} : ∀ {l : List Nat} {c : Nat},
    c ∈ mapConcat f l → ∃ a ∈ l, c ∈ f a := by
  intro l
  induction l with
  | nil => intro c hc; exact absurd hc (by simp [mapConcat])
  | cons a r ih =>
    intro c hc
    rw [show mapConcat f (a :: r) = f a ++ mapConcat f r from rfl] at hc
    rcases List.mem_append.mp hc with h | h
    · exact ⟨a, by simp, h⟩
    · obtain ⟨b, hb, hcb⟩ := ih h
      exact ⟨b, by simp [hb], hcb⟩

theorem hexDigUpper_ge48 (v : Nat) : 48 ≤ hexDigUpper v := by
  unfold hexDigUpper
  split <;> omega

theorem pctUtf8_mem {cp c : Nat} (hc : c ∈ pctUtf8 cp) : c = 37 ∨ 48 ≤ c := by
  unfold pctUtf8 at hc
  obtain ⟨b, _, hcb⟩ := mapConcat_mem hc
  simp at hcb
  rcases hcb with h | h | h
  · exact Or.inl h
  · exact Or.inr (h ▸ hexDigUpper_ge48 (b / 16))
  · exact Or.inr (h ▸ hexDigUpper_ge48 (b % 16))

/-- Scanning past a character other than a percent sign leaves it. -/
theorem pct20_step {c : Nat} (hc : ¬c = 37) (r : Text) :
    pct20ToPlus (c :: r) = c :: pct20ToPlus r := by
  cases r with
  | nil => rfl
  | cons h1 r1 =>
    cases r1 with
    | nil => rfl
    | cons h2 r2 =>
      show (if c = 37 ∧ h1 = 50 ∧ h2 = 48 then 43 :: pct20ToPlus r2
        else c :: pct20ToPlus (h1 :: h2 :: r2)) = _
      rw [if_neg (by intro hand; exact hc hand.1)]

/-- Scanning past the escape of a byte other than 0x20 leaves it. -/
theorem pct20_triple {B : Nat} (hB : B < 256) (hne : ¬B = 32) (R : Text) :
    pct20ToPlus (37 :: hexDigUpper (B / 16) :: hexDigUpper (B % 16) :: R) =
      37 :: hexDigUpper (B / 16) :: hexDigUpper (B % 16) :: pct20ToPlus R := by
  have hd1 : ¬hexDigUpper (B / 16) = 37 := by unfold hexDigUpper; split <;> omega
  have hd2 : ¬hexDigUpper (B % 16) = 37 := by unfold hexDigUpper; split <;> omega
  have hcond : ¬((37 : Nat) = 37 ∧ hexDigUpper (B / 16) = 50 ∧
      hexDigUpper (B % 16) = 48) := by
    unfold hexDigUpper
    split_ifs <;> omega
  show (if (37 : Nat) = 37 ∧ hexDigUpper (B / 16) = 50 ∧ hexDigUpper (B % 16) = 48 then
      43 :: pct20ToPlus R
    else 37 :: pct20ToPlus (hexDigUpper (B / 16) :: hexDigUpper (B % 16) :: R)) =
    37 :: hexDigUpper (B / 16) :: hexDigUpper (B % 16) :: pct20ToPlus R
  rw [if_neg hcond, pct20_step hd1, pct20_step hd2]

theorem pct20_bytes : ∀ (bs : Bytes) (R : Text), (∀ B ∈ bs, B < 256 ∧ ¬B = 32) →
    pct20ToPlus (mapConcat (fun b => [37, hexDigUpper (b / 16), hexDigUpper (b % 16)])
        bs ++ R) =
      mapConcat (fun b => [37, hexDigUpper (b / 16), hexDigUpper (b % 16)]) bs ++
        pct20ToPlus R := by
  intro bs
  induction bs with
  | nil => intro R _; rfl
  | cons B bs ih =>
    intro R hall
    obtain ⟨hB, hne⟩ := hall B (by simp)
    show pct20ToPlus (37 :: hexDigUpper (B / 16) :: hexDigUpper (B % 16) ::
        (mapConcat (fun b => [37, hexDigUpper (b / 16), hexDigUpper (b % 16)]) bs ++ R)) =
      37 :: hexDigUpper (B / 16) :: hexDigUpper (B % 16) ::
        (mapConcat (fun b => [37, hexDigUpper (b / 16), hexDigUpper (b % 16)]) bs ++
          pct20ToPlus R)
    rw [pct20_triple hB hne, ih R (fun b hb => hall b (by simp [hb]))]

theorem encCp_ne32 {cp : Nat} (hne : ¬cp = 32) : ∀ B ∈ encCp cp, ¬B = 32 := by
  intro B hB
  unfold encCp at hB
  split_ifs at hB <;> simp at hB <;> omega

/-- The percent-two-zero replace leaves the escapes of every code point
other than the space. -/
theorem pct20_pctUtf8 {cp : Nat} (h : IsScalar cp) (hne : ¬cp = 32) (R : Text) :
    pct20ToPlus (pctUtf8 cp ++ R) = pctUtf8 cp ++ pct20ToPlus R := by
  unfold pctUtf8
  exact pct20_bytes (encCp cp) R
    (fun B hB => ⟨encCp_lt256 h.1 B hB, encCp_ne32 hne B hB⟩)

/-- The percent-two-zero replace of one encoded code point. -/
theorem pct20_encCU1 {cp : Nat} (h : IsScalar cp) (R : Text) :
    pct20ToPlus (encCU1 cp ++ R) = fCU1 cp ++ pct20ToPlus R := by
  unfold fCU1
  by_cases h32 : cp = 32
  · subst h32
    rw [if_pos rfl]
    unfold encCU1
    rw [if_neg (by decide)]
    show (if (37 : Nat) = 37 ∧ (50 : Nat) = 50 ∧ (48 : Nat) = 48 then 43 :: pct20ToPlus R
      else 37 :: pct20ToPlus (50 :: 48 :: R)) = [43] ++ pct20ToPlus R
    rw [if_pos (by omega)]
    rfl
  · rw [if_neg h32]
    unfold encCU1
    by_cases hu : uriUnreserved cp = true
    · rw [if_pos hu]
      have h37 : ¬cp = 37 := by
        intro he
        rw [he] at hu
        exact absurd hu (by decide)
      show pct20ToPlus (cp :: R) = cp :: pct20ToPlus R
      exact pct20_step h37 R
    · rw [if_neg hu]
      exact pct20_pctUtf8 h h32 R

theorem plusToSpace_noplus {t : Text} (h : ∀ c ∈ t, ¬c = 43) : plusToSpace t = t := by
  unfold plusToSpace
  rw [List.map_congr_left (fun c hc => if_neg (h c hc))]
  exact List.map_id t

/-- The plus-to-space replace leaves every encoded code point other than
the space. -/
theorem plusToSpace_fCU1 {cp : Nat} (h : IsScalar cp) :
    plusToSpace (fCU1 cp) = gCU1 cp := by
  unfold fCU1 gCU1
  by_cases h32 : cp = 32
  · rw [if_pos h32, if_pos h32]
    rfl
  · rw [if_neg h32, if_neg h32]
    apply plusToSpace_noplus
    intro c hc
    unfold encCU1 at hc
    by_cases hu : uriUnreserved cp = true
    · rw [if_pos hu] at hc
      simp at hc
      subst hc
      intro h43
      rw [h43] at hu
      exact absurd hu (by decide)
    · rw [if_neg hu] at hc
      rcases pctUtf8_mem hc with h37 | h48 <;> omega

/-- Scanning one formUrl-decoded code point emits its code units. -/
theorem uriRun_gCU1 {cp : Nat} (h : IsScalar cp) (R : Text) :
    uriRun uriSt0 (gCU1 cp ++ R) =
      (uriRun uriSt0 R).map (fun t => cuOfCp cp ++ t) := by
  unfold gCU1
  by_cases h32 : cp = 32
  · subst h32
    rw [if_pos rfl]
    show uriRun ⟨0, 0, u8St0⟩ (32 :: R) =
      Option.map (fun t => cuOfCp 32 ++ t) (uriRun uriSt0 R)
    rw [uriRun_cons_pair R (uriStep_plain (by omega) 0 (u := u8St0) rfl)]
    rfl
  · rw [if_neg h32]
    exact uriRun_encCU1 h R

theorem pct20_concat : ∀ (cps : List Nat), (∀ cp ∈ cps, IsScalar cp) →
    pct20ToPlus (mapConcat encCU1 cps) = mapConcat fCU1 cps := by
  intro cps
  induction cps with
  | nil => intro _; rfl
  | cons cp rest ih =>
    intro hall
    show pct20ToPlus (encCU1 cp ++ mapConcat encCU1 rest) = fCU1 cp ++ mapConcat fCU1 rest
    rw [pct20_encCU1 (hall cp (by simp)), ih (fun c hc => hall c (by simp [hc]))]

theorem plusToSpace_concat : ∀ (cps : List Nat), (∀ cp ∈ cps, IsScalar cp) →
    plusToSpace (mapConcat fCU1 cps) = mapConcat gCU1 cps := by
  intro cps
  induction cps with
  | nil => intro _; rfl
  | cons cp rest ih =>
    intro hall
    show plusToSpace (fCU1 cp ++ mapConcat fCU1 rest) = gCU1 cp ++ mapConcat gCU1 rest
    unfold plusToSpace
    rw [List.map_append]
    rw [show List.map (fun c => if c = 43 then 32 else c) (fCU1 cp) =
      plusToSpace (fCU1 cp) from rfl]
    rw [show List.map (fun c => if c = 43 then 32 else c) (mapConcat fCU1 rest) =
      plusToSpace (mapConcat fCU1 rest) from rfl]
    rw [plusToSpace_fCU1 (hall cp (by simp)), ih (fun c hc => hall c (by simp [hc]))]

theorem uriRun_gCU1_concat : ∀ (cps : List Nat), (∀ cp ∈ cps, IsScalar cp) →
    uriRun uriSt0 (mapConcat gCU1 cps) = some (mapConcat cuOfCp cps) := by
  intro cps
  induction cps with
  | nil => intro _; rfl
  | cons cp rest ih =>
    intro hall
    show uriRun uriSt0 (gCU1 cp ++ mapConcat gCU1 rest) = _
    rw [uriRun_gCU1 (hall cp (by simp)), ih (fun c hc => hall c (by simp [hc]))]
    rfl

/-- The formUrl decode inverts the formUrl encode on every well-formed
string. -/
theorem formurl_dec_enc {s : Text} (h : wfStr s = true) :
    ∃ e, (encURIComp s).map pct20ToPlus = some e ∧
      decURIComp (plusToSpace e) = some s := by
  unfold wfStr at h
  cases hc : scalars s with
  | none => rw [hc] at h; exact absurd h (by simp)
  | some cps =>
    have hall := scalars_all_scalar cps s hc
    refine ⟨mapConcat fCU1 cps, ?_, ?_⟩
    · rw [encURIComp_scalars cps s hc]
      show some (pct20ToPlus (mapConcat encCU1 cps)) = _
      rw [pct20_concat cps hall]
    · unfold decURIComp
      rw [plusToSpace_concat cps hall, uriRun_gCU1_concat cps hall,
        ← scalars_eq_concat cps s hc]

/- ===== urlU / jsEscape round trip ===== -/

/-- One code point of the urlU encoding: a two-digit escape below 0x80,
a percent-u escape otherwise. -/
def uCU1 (cp : Nat) : Text :=
  if cp < 0x80 then 37 :: hexPad2 cp
  else 37 :: 117 :: hexPadStart4 cp

/-- One code point after the percent-u replace: percent-u escapes are
already code units, two-digit escapes remain. -/
def vCU1 (cp : Nat) : Text := if cp < 0x80 then 37 :: hexPad2 cp else [cp]

theorem urlUEncode_concat (s : Text) : urlUEncode s = mapConcat uCU1 (codePoints s) := by
  unfold urlUEncode uCU1
  rfl

/-- The percent-u replace consumes a character other than a percent sign. -/
theorem replaceU_step {c : Nat} (hc : ¬c = 37) (r : Text) :
    replaceU (c :: r) = c :: replaceU r := by
  cases r with
  | nil => rfl
  | cons a1 r1 =>
    cases r1 with
    | nil => rfl
    | cons a2 r2 =>
      cases r2 with
      | nil => rfl
      | cons a3 r3 =>
        cases r3 with
        | nil => rfl
        | cons a4 r4 =>
          cases r4 with
          | nil => rfl
          | cons a5 r5 =>
            show (if c = 37 ∧ a1 = 117 ∧ isHexDigit a2 = true ∧ isHexDigit a3 = true ∧
                isHexDigit a4 = true ∧ isHexDigit a5 = true then
                ((hexVal a2).getD 0 * 4096 + (hexVal a3).getD 0 * 256 +
                  (hexVal a4).getD 0 * 16 + (hexVal a5).getD 0) :: replaceU r5
              else c :: replaceU (a1 :: a2 :: a3 :: a4 :: a5 :: r5)) = _
            rw [if_neg (by intro hand; exact hc hand.1)]

/-- The percent-u replace consumes a percent sign not followed by the
letter u. -/
theorem replaceU_step37 {d1 : Nat} (hu : ¬d1 = 117) (t : Text) :
    replaceU (37 :: d1 :: t) = 37 :: replaceU (d1 :: t) := by
  cases t with
  | nil => rfl
  | cons a2 r2 =>
    cases r2 with
    | nil => rfl
    | cons a3 r3 =>
      cases r3 with
      | nil => rfl
      | cons a4 r4 =>
        cases r4 with
        | nil => rfl
        | cons a5 r5 =>
          show (if (37 : Nat) = 37 ∧ d1 = 117 ∧ isHexDigit a2 = true ∧
              isHexDigit a3 = true ∧ isHexDigit a4 = true ∧ isHexDigit a5 = true then
              ((hexVal a2).getD 0 * 4096 + (hexVal a3).getD 0 * 256 +
                (hexVal a4).getD 0 * 16 + (hexVal a5).getD 0) :: replaceU r5
            else 37 :: replaceU (d1 :: a2 :: a3 :: a4 :: a5 :: r5)) = _
          rw [if_neg (by intro hand; exact hu hand.2.1)]

/-- The percent-u replace turns a percent-u escape of a value below
0x10000 into that code unit. -/
theorem replaceU_u6 {cp : Nat} (h1 : 0x80 ≤ cp) (h2 : cp < 0x10000) (R : Text) :
    replaceU (37 :: 117 :: hexPad4 cp ++ R) = cp :: replaceU R := by
  show (if (37 : Nat) = 37 ∧ (117 : Nat) = 117 ∧
      isHexDigit (hexDigLower (cp / 4096 % 16)) = true ∧
      isHexDigit (hexDigLower (cp / 256 % 16)) = true ∧
      isHexDigit (hexDigLower (cp / 16 % 16)) = true ∧
      isHexDigit (hexDigLower (cp % 16)) = true then
      ((hexVal (hexDigLower (cp / 4096 % 16))).getD 0 * 4096 +
        (hexVal (hexDigLower (cp / 256 % 16))).getD 0 * 256 +
        (hexVal (hexDigLower (cp / 16 % 16))).getD 0 * 16 +
        (hexVal (hexDigLower (cp % 16))).getD 0) :: replaceU R
    else 37 :: replaceU (117 :: hexDigLower (cp / 4096 % 16) ::
      hexDigLower (cp / 256 % 16) :: hexDigLower (cp / 16 % 16) ::
      hexDigLower (cp % 16) :: R)) = cp :: replaceU R
  rw [if_pos ⟨rfl, rfl, hexDigLower_isHex (by omega), hexDigLower_isHex (by omega),
    hexDigLower_isHex (by omega), hexDigLower_isHex (by omega)⟩,
    hexDigLower_hexVal (by omega), hexDigLower_hexVal (by omega),
    hexDigLower_hexVal (by omega), hexDigLower_hexVal (by omega)]
  simp only [Option.getD_some]
  have hv : cp / 4096 % 16 * 4096 + cp / 256 % 16 * 256 + cp / 16 % 16 * 16 + cp % 16 =
      cp := by omega
  rw [hv]

/-- The plain-escape replace consumes a character other than a percent
sign. -/
theorem replaceHH_step {c : Nat} (hc : ¬c = 37) (r : Text) :
    replaceHH (c :: r) = c :: replaceHH r := by
  cases r with
  | nil => rfl
  | cons a1 r1 =>
    cases r1 with
    | nil => rfl
    | cons a2 r2 =>
      show (if c = 37 ∧ isHexDigit a1 = true ∧ isHexDigit a2 = true then
          ((hexVal a1).getD 0 * 16 + (hexVal a2).getD 0) :: replaceHH r2
        else c :: replaceHH (a1 :: a2 :: r2)) = _
      rw [if_neg (by intro hand; exact hc hand.1)]

/-- The plain-escape replace turns a two-digit escape of a byte value
into that code unit. -/
theorem replaceHH_hh {B : Nat} (hB : B < 256) (R : Text) :
    replaceHH (37 :: hexPad2 B ++ R) = B :: replaceHH R := by
  show (if (37 : Nat) = 37 ∧ isHexDigit (hexDigLower (B / 16 % 16)) = true ∧
      isHexDigit (hexDigLower (B % 16)) = true then
      ((hexVal (hexDigLower (B / 16 % 16))).getD 0 * 16 +
        (hexVal (hexDigLower (B % 16))).getD 0) :: replaceHH R
    else 37 :: replaceHH (hexDigLower (B / 16 % 16) :: hexDigLower (B % 16) :: R)) =
    B :: replaceHH R
  rw [if_pos ⟨rfl, hexDigLower_isHex (by omega), hexDigLower_isHex (by omega)⟩,
    hexDigLower_hexVal (by omega), hexDigLower_hexVal (by omega)]
  simp only [Option.getD_some]
  have hv : B / 16 % 16 * 16 + B % 16 = B := by omega
  rw [hv]

/-- The percent-u replace on one encoded code point. -/
theorem replaceU_uCU1 {cp : Nat} (h2 : cp < 0x10000) (R : Text) :
    replaceU (uCU1 cp ++ R) = vCU1 cp ++ replaceU R := by
  unfold uCU1 vCU1
  by_cases h1 : cp < 0x80
  · rw [if_pos h1, if_pos h1]
    show replaceU (37 :: hexDigLower (cp / 16 % 16) :: hexDigLower (cp % 16) :: R) =
      37 :: hexDigLower (cp / 16 % 16) :: hexDigLower (cp % 16) :: replaceU R
    have r1 := hexDigLower_range (v := cp / 16 % 16) (by omega)
    have r2 := hexDigLower_range (v := cp % 16) (by omega)
    rw [replaceU_step37 (by omega), replaceU_step (by omega), replaceU_step (by omega)]
  · rw [if_neg h1, if_neg h1]
    unfold hexPadStart4
    rw [if_pos h2]
    exact replaceU_u6 (by omega) h2 R

/-- The plain-escape replace on one code point of the intermediate
stream. -/
theorem replaceHH_vCU1 {cp : Nat} (h2 : cp < 0x10000) (R : Text) :
    replaceHH (vCU1 cp ++ R) = cp :: replaceHH R := by
  unfold vCU1
  by_cases h1 : cp < 0x80
  · rw [if_pos h1]
    show replaceHH (37 :: hexPad2 cp ++ R) = cp :: replaceHH R
    exact replaceHH_hh (by omega) R
  · rw [if_neg h1]
    show replaceHH (cp :: R) = cp :: replaceHH R
    exact replaceHH_step (by omega) R

theorem replaceU_concat : ∀ (cps : List Nat), (∀ cp ∈ cps, cp < 0x10000) →
    replaceU (mapConcat uCU1 cps) = mapConcat vCU1 cps := by
  intro cps
  induction cps with
  | nil => intro _; rfl
  | cons cp rest ih =>
    intro hall
    show replaceU (uCU1 cp ++ mapConcat uCU1 rest) = vCU1 cp ++ mapConcat vCU1 rest
    rw [replaceU_uCU1 (hall cp (by simp)), ih (fun c hc => hall c (by simp [hc]))]

theorem replaceHH_concat : ∀ (cps : List Nat), (∀ cp ∈ cps, cp < 0x10000) →
    replaceHH (mapConcat vCU1 cps) = cps := by
  intro cps
  induction cps with
  | nil => intro _; rfl
  | cons cp rest ih =>
    intro hall
    show replaceHH (vCU1 cp ++ mapConcat vCU1 rest) = cp :: rest
    rw [replaceHH_vCU1 (hall cp (by simp)), ih (fun c hc => hall c (by simp [hc]))]

theorem mapConcat_singleton : ∀ {l : List Nat} (f : Nat → List Nat),
    (∀ a ∈ l, f a = [a]) → mapConcat f l = l := by
  intro l
  induction l with
  | nil => intro f _; rfl
  | cons a r ih =>
    intro f hall
    show f a ++ mapConcat f r = a :: r
    rw [hall a (by simp), ih f (fun b hb => hall b (by simp [hb]))]
    rfl

/-- urlUDecode inverts urlUEncode on every well-formed string whose code
points all lie in the basic multilingual plane. -/
theorem urlU_dec_enc {s : Text} {cps : List Nat} (hc : scalars s = some cps)
    (hbmp : ∀ cp ∈ cps, cp < 0x10000) :
    urlUDecode (urlUEncode s) = s := by
  have hall := scalars_all_scalar cps s hc
  have hs : s = cps := by
    rw [scalars_eq_concat cps s hc]
    exact mapConcat_singleton cuOfCp (fun cp hcp => cuOfCp_bmp (hbmp cp hcp))
  have hcp : codePoints s = cps := by
    rw [hs]
    exact codePoints_nosurr (fun c hcs => by
      have h1 := hall c hcs
      exact h1.2)
  unfold urlUDecode
  rw [urlUEncode_concat, hcp, replaceU_concat cps hbmp, replaceHH_concat cps hbmp, hs]

/- ===== html round trip ===== -/

/-- One character of htmlEncode, as the five sequential replaces act on
it: the five special characters become their entities, everything else
passes. -/
def hCU1 (c : Nat) : Text :=
  if c = 38 then [38, 97, 109, 112, 59]
  else if c = 60 then [38, 108, 116, 59]
  else if c = 62 then [38, 103, 116, 59]
  else if c = 34 then [38, 113, 117, 111, 116, 59]
  else if c = 39 then [38, 35, 51, 57, 59]
  else [c]

theorem replChar_cons (t : Nat) (rep : Text) (c : Nat) (r : Text) :
    replChar t rep (c :: r) = (if c = t then rep else [c]) ++ replChar t rep r := rfl

theorem replChar_append (t : Nat) (rep : Text) (a b : Text) :
    replChar t rep (a ++ b) = replChar t rep a ++ replChar t rep b :=
  mapConcat_append _ a b

theorem replChar_single_ne (t : Nat) (rep : Text) {c : Nat} (h : ¬c = t) :
    replChar t rep [c] = [c] := by
  show (if c = t then rep else [c]) ++ [] = [c]
  rw [if_neg h]
  rfl

/-- The five sequential replaces of htmlEncode act independently on each
character. -/
theorem htmlEncode_cons (c : Nat) (r : Text) :
    htmlEncode (c :: r) = hCU1 c ++ htmlEncode r := by
  unfold htmlEncode
  rw [replChar_cons 38 _ c r, replChar_append, replChar_append, replChar_append,
    replChar_append]
  congr 1
  unfold hCU1
  by_cases h38 : c = 38
  · subst h38; rfl
  simp only [if_neg h38]
  by_cases h60 : c = 60
  · subst h60; rfl
  simp only [if_neg h60]
  rw [replChar_single_ne 60 _ h60]
  by_cases h62 : c = 62
  · subst h62; rfl
  simp only [if_neg h62]
  rw [replChar_single_ne 62 _ h62]
  by_cases h34 : c = 34
  · subst h34; rfl
  simp only [if_neg h34]
  rw [replChar_single_ne 34 _ h34]
  by_cases h39 : c = 39
  · subst h39; rfl
  simp only [if_neg h39]
  exact replChar_single_ne 39 _ h39

theorem htmlEncode_concat (s : Text) : htmlEncode s = mapConcat hCU1 s := by
  induction s with
  | nil => rfl
  | cons c r ih =>
    rw [htmlEncode_cons, ih]
    rfl

/-- htmlDecode resolves the entity of one encoded character and keeps
every other character. -/
theorem htmlDecode_hCU1 (c : Nat) (R : Text) :
    htmlDecode (hCU1 c ++ R) = c :: htmlDecode R := by
  unfold hCU1
  by_cases h38 : c = 38
  · subst h38
    rw [if_pos rfl]
    show htmlDecode (38 :: 97 :: 109 :: 112 :: 59 :: R) = 38 :: htmlDecode R
    simp [htmlDecode]
  rw [if_neg h38]
  by_cases h60 : c = 60
  · subst h60
    rw [if_pos rfl]
    show htmlDecode (38 :: 108 :: 116 :: 59 :: R) = 60 :: htmlDecode R
    simp [htmlDecode]
  rw [if_neg h60]
  by_cases h62 : c = 62
  · subst h62
    rw [if_pos rfl]
    show htmlDecode (38 :: 103 :: 116 :: 59 :: R) = 62 :: htmlDecode R
    simp [htmlDecode]
  rw [if_neg h62]
  by_cases h34 : c = 34
  · subst h34
    rw [if_pos rfl]
    show htmlDecode (38 :: 113 :: 117 :: 111 :: 116 :: 59 :: R) = 34 :: htmlDecode R
    simp [htmlDecode]
  rw [if_neg h34]
  by_cases h39 : c = 39
  · subst h39
    rw [if_pos rfl]
    show htmlDecode (38 :: 35 :: 51 :: 57 :: 59 :: R) = 39 :: htmlDecode R
    simp [htmlDecode, List.takeWhile_cons, show isDigitCh 51 = true from rfl,
      show isDigitCh 57 = true from rfl, show isDigitCh 59 = false from rfl,
      show decListVal [51, 57] = 39 from rfl, show cuOfCp 39 = [39] from rfl]
  rw [if_neg h39]
  show htmlDecode (c :: R) = c :: htmlDecode R
  simp only [htmlDecode]
  rw [if_pos h38]

/-- htmlDecode inverts htmlEncode on every string. -/
theorem htmlDecode_htmlEncode (s : Text) : htmlDecode (htmlEncode s) = s := by
  rw [htmlEncode_concat]
  induction s with
  | nil => simp [htmlDecode, mapConcat]
  | cons c r ih =>
    show htmlDecode (hCU1 c ++ mapConcat hCU1 r) = c :: r
    rw [htmlDecode_hCU1, ih]

/- ===== round-trip assembly ===== -/

/-- A codec round-trips on a text: its encode succeeds and its decode
returns the original text. -/
def RoundTrips (G : GzipModel) (c : Method) (t : Text) : Prop :=
  ∃ e, encode G c t = some e ∧ decode G c e = some t

/-- All code units outside the surrogate range. -/
def bmpStr (s : Text) : Bool := s.all (fun u => decide (u < 0xD800) || decide (0xE000 ≤ u))

/-- Printable text: well-formed, every code point at least the space and
not the delete control. -/
def printableStr (s : Text) : Bool :=
  match scalars s with
  | some cps => cps.all (fun cp => decide (32 ≤ cp) && decide (cp ≠ 127))
  | none => false

theorem printableStr_wf {s : Text} (h : printableStr s = true) : wfStr s = true := by
  unfold printableStr at h
  unfold wfStr
  cases hc : scalars s with
  | none => rw [hc] at h; exact absurd h (by simp)
  | some cps => rfl

/-- A well-formed string without surrogate code units is its own list of
code points, all in the basic plane. -/
theorem scalars_bmp : ∀ (cps : List Nat) (s : Text), scalars s = some cps →
    bmpStr s = true → cps = s ∧ ∀ cp ∈ cps, cp < 0x10000 := by
  intro cps
  induction cps with
  | nil =>
    intro s h _
    rcases scalars_struct h with ⟨hs, _⟩ | ⟨cp, cps2, s2, hceq, _⟩
    · exact ⟨hs.symm, by simp⟩
    · cases hceq
  | cons cp0 rest ih =>
    intro s h hb
    rcases scalars_struct h with ⟨_, hc⟩ | ⟨cp, cps2, s2, hceq, hseq, hs2, hsc⟩
    · cases hc
    · obtain ⟨h1, h2⟩ := List.cons_eq_cons.mp hceq
      rw [← h1] at hseq hsc
      rw [← h2] at hs2
      have hcp : cp0 < 0x10000 := by
        by_contra hge
        have hhi : (0xD800 + (cp0 - 0x10000) / 0x400) ∈ s := by
          rw [hseq]
          unfold cuOfCp
          rw [if_neg hge]
          simp
        have hball := List.all_eq_true.mp hb _ hhi
        have hr : cp0 - 0x10000 < 0x100000 := by
          have := hsc.1
          omega
        have hq : (cp0 - 0x10000) / 0x400 < 0x400 := by omega
        simp at hball
        omega
      rw [cuOfCp_bmp hcp] at hseq
      have hb2 : bmpStr s2 = true := by
        rw [hseq] at hb
        unfold bmpStr at hb ⊢
        simp only [List.all_append, Bool.and_eq_true] at hb
        exact hb.2
      obtain ⟨he, hlt⟩ := ih s2 hs2 hb2
      constructor
      · rw [hseq, he]
        rfl
      · intro x hx
        rcases List.mem_cons.mp hx with hx | hx
        · rw [hx]; exact hcp
        · exact hlt x hx
    
/-- gzip decompression inverts gzip compression on well-formed text,
for every compressor satisfying the stream interface. -/
theorem gzip_dec_enc (G : GzipModel) {s : Text} (h : wfStr s = true) :
    gzipDecompressFromBase64 G (gzipCompressToBase64 G s) = some s := by
  unfold gzipCompressToBase64 gzipDecompressFromBase64
  rw [fromBase64_toBase64 (G.compressBytes _ (utf8Enc_lt256 h))]
  show (G.decompress (G.compress (utf8Enc s))).map utf8DecR = some s
  rw [G.roundtrip]
  show some (utf8DecR (utf8Enc s)) = some s
  rw [utf8_roundtrip h]

/- ===== trim and whitespace lemmas ===== -/

theorem dropWhile_head_not {p : Nat → Bool} : ∀ (l : Text) (c : Nat),
    (l.dropWhile p).head? = some c → p c = false := by
  intro l
  induction l with
  | nil => intro c hc; cases hc
  | cons a r ih =>
    intro c hc
    rw [List.dropWhile_cons] at hc
    by_cases hp : p a = true
    · rw [if_pos hp] at hc
      exact ih c hc
    · rw [if_neg hp] at hc
      rw [List.head?_cons, Option.some.injEq] at hc
      rw [← hc]
      exact Bool.eq_false_iff.mpr hp

/-- The first character of a trimmed string is not whitespace. -/
theorem trim_head {s : Text} : ∀ {c : Nat}, (trim s).head? = some c → isJsWs c = false := by
  intro c hc
  unfold trim at hc
  cases hA : s.dropWhile isJsWs with
  | nil => rw [hA] at hc; cases hc
  | cons a r =>
    have ha : isJsWs a = false := dropWhile_head_not s a (by rw [hA]; rfl)
    rw [hA, show (a :: r).reverse = r.reverse ++ [a] by simp,
      List.dropWhile_append] at hc
    by_cases hE : (r.reverse.dropWhile isJsWs).isEmpty = true
    · rw [if_pos hE, show List.dropWhile isJsWs [a] = [a] by
        rw [List.dropWhile_cons, if_neg (by simp [ha])]] at hc
      simp at hc
      rw [← hc]
      exact ha
    · rw [if_neg hE, List.reverse_append] at hc
      simp at hc
      rw [← hc]
      exact ha

/-- The last character of a trimmed string is not whitespace. -/
theorem trim_rev_head {s : Text} : ∀ {c : Nat},
    (trim s).reverse.head? = some c → isJsWs c = false := by
  intro c hc
  unfold trim at hc
  rw [List.reverse_reverse] at hc
  exact dropWhile_head_not _ c hc

/-- String.prototype.trim is idempotent. -/
theorem trim_idem (s : Text) : trim (trim s) = trim s := by
  have h1 : (trim s).dropWhile isJsWs = trim s :=
    dropWhile_head_id (fun c hc => trim_head hc)
  show (((trim s).dropWhile isJsWs).reverse.dropWhile isJsWs).reverse = trim s
  rw [h1, dropWhile_head_id (fun c hc => trim_rev_head hc)]
  exact List.reverse_reverse _

/-- The whitespace strip is idempotent. -/
theorem stripWs_idem (s : Text) : stripWs (stripWs s) = stripWs s := by
  unfold stripWs
  rw [List.filter_filter]
  simp

/-- All-whitespace strings trim to the empty string. -/
theorem trim_ws_nil {s : Text} (h : ∀ c ∈ s, isJsWs c = true) : trim s = [] := by
  have h1 : s.dropWhile isJsWs = [] :=
    List.dropWhile_eq_nil_iff.mpr (fun x hx => by simp [h x hx])
  unfold trim
  rw [h1]
  rfl

/- ===== cascade structure lemmas ===== -/

theorem attempt_isSome (m : Method) (r : Option Text) {next : Option SmartResult}
    (h : next.isSome = true) : (attempt m r next).isSome = true := by
  unfold attempt
  cases r with
  | some t => rfl
  | none => exact h

/-- The tail of the cascade always settles: the ASCII-hex attempt is
total. -/
theorem smartTail_isSome (s : Text) : (smartTail s).isSome = true := by
  unfold smartTail
  apply attempt_isSome
  apply attempt_isSome
  apply attempt_isSome
  rfl

/-- The URL steps settle on every well-formed string: the only exit is
the uncaught URIError of the bare encodeURIComponent pre-check. -/
theorem smartUrl_isSome {s : Text} (h : wfStr s = true) :
    (smartUrl s).isSome = true := by
  unfold smartUrl
  by_cases hp : hasPctHH s = true
  · rw [if_pos hp]
    exact attempt_isSome _ _ (smartTail_isSome s)
  · rw [if_neg hp]
    cases he : encURIComp s with
    | none => exact absurd (encURIComp_isSome h) (by rw [he]; simp)
    | some e =>
      simp only
      by_cases hpe : hasPctHH e = true
      · rw [if_pos hpe]
        exact attempt_isSome _ _ (smartTail_isSome s)
      · rw [if_neg hpe]
        exact smartTail_isSome s

theorem attempt_codec {m : Method} {r : Option Text} {next : Option SmartResult}
    {res : SmartResult} (h : attempt m r next = some res)
    (hn : ∀ x, next = some x → ¬x.codec = none) : ¬res.codec = none := by
  unfold attempt at h
  cases r with
  | some t =>
    rw [Option.some.injEq] at h
    rw [← h]
    simp
  | none => exact hn res h

/-- Every settled tail result carries a codec: the undetermined sentinel
sits behind the total ASCII-hex attempt and is unreachable. -/
theorem smartTail_codec {s : Text} {res : SmartResult} (h : smartTail s = some res) :
    ¬res.codec = none := by
  unfold smartTail at h
  refine attempt_codec h (fun x1 h1 => attempt_codec h1 (fun x2 h2 =>
    attempt_codec h2 (fun x3 h3 => ?_)))
  unfold attempt at h3
  rw [Option.some.injEq] at h3
  rw [← h3]
  simp

theorem smartUrl_codec {s : Text} {res : SmartResult} (h : smartUrl s = some res) :
    ¬res.codec = none := by
  unfold smartUrl at h
  by_cases hp : hasPctHH s = true
  · rw [if_pos hp] at h
    exact attempt_codec h (fun x hx => smartTail_codec hx)
  · rw [if_neg hp] at h
    cases he : encURIComp s with
    | none => rw [he] at h; exact Option.noConfusion h
    | some e =>
      rw [he] at h
      simp only at h
      by_cases hpe : hasPctHH e = true
      · rw [if_pos hpe] at h
        exact attempt_codec h (fun x hx => smartTail_codec hx)
      · rw [if_neg hpe] at h
        exact smartTail_codec h

theorem smartGz_codec {G : GzipModel} {s : Text} {res : SmartResult}
    (h : smartGz G s = some res) : ¬res.codec = none := by
  unfold smartGz at h
  split at h
  · split at h
    · split at h
      · rw [Option.some.injEq] at h
        rw [← h]
        simp
      · exact Option.noConfusion h
    · exact Option.noConfusion h
  · exact Option.noConfusion h

/- ===== JWT rejection lemmas ===== -/

theorem takeWhile_append_stop {p : Nat → Bool} {c : Nat} (hc : p c = false) :
    ∀ (a b : Text), (∀ x ∈ a, p x = true) → (a ++ c :: b).takeWhile p = a := by
  intro a
  induction a with
  | nil =>
    intro b _
    show (c :: b).takeWhile p = []
    rw [List.takeWhile_cons, if_neg (by simp [hc])]
  | cons x r ih =>
    intro b hall
    show ((x :: r) ++ c :: b).takeWhile p = x :: r
    rw [List.cons_append, List.takeWhile_cons, if_pos (hall x (by simp)),
      ih b (fun y hy => hall y (by simp [hy]))]

/-- The JWT regex cannot match a string without a dot. -/
theorem jwtMatch_no_dot {s : Text} (h : ¬46 ∈ s) : jwtMatch s = none := by
  unfold jwtMatch
  show (match s.drop (s.takeWhile isB64UrlChar).length with
    | 46 :: r2 =>
      if s.takeWhile isB64UrlChar ≠ [] ∧ r2.takeWhile isB64UrlChar ≠ [] then
        match r2.drop (r2.takeWhile isB64UrlChar).length with
        | 46 :: r4 => if r4.all isB64UrlChar = true then
            some (s.takeWhile isB64UrlChar, r2.takeWhile isB64UrlChar) else none
        | _ => none
      else none
    | _ => none) = none
  split
  · rename_i r2 heq
    exfalso
    apply h
    have h46 : 46 ∈ s.drop (s.takeWhile isB64UrlChar).length := by
      rw [heq]
      simp
    exact List.mem_of_mem_drop h46
  · rfl

/-- The JWT regex rejects a two-segment token: its second dot is
mandatory. -/
theorem jwtMatch_two_seg {a b : Text} (hane : a ≠ []) (hbne : b ≠ [])
    (ha : ∀ x ∈ a, isB64UrlChar x = true) (hb : ∀ x ∈ b, isB64UrlChar x = true) :
    jwtMatch (a ++ 46 :: b) = none := by
  unfold jwtMatch
  show (match (a ++ 46 :: b).drop ((a ++ 46 :: b).takeWhile isB64UrlChar).length with
    | 46 :: r2 =>
      if (a ++ 46 :: b).takeWhile isB64UrlChar ≠ [] ∧
          r2.takeWhile isB64UrlChar ≠ [] then
        match r2.drop (r2.takeWhile isB64UrlChar).length with
        | 46 :: r4 => if r4.all isB64UrlChar = true then
            some ((a ++ 46 :: b).takeWhile isB64UrlChar, r2.takeWhile isB64UrlChar)
          else none
        | _ => none
      else none
    | _ => none) = none
  rw [takeWhile_append_stop rfl a b ha, List.drop_left]
  show (if a ≠ [] ∧ b.takeWhile isB64UrlChar ≠ [] then
      match b.drop (b.takeWhile isB64UrlChar).length with
      | 46 :: r4 =>
        if r4.all isB64UrlChar = true then some (a, b.takeWhile isB64UrlChar) else none
      | _ => none
    else none) = none
  rw [takeWhile_all hb, if_pos ⟨hane, hbne⟩, List.drop_length]

theorem tryDecodeJwt_no_dot {s : Text} (h : ¬46 ∈ s) : tryDecodeJwt s = none := by
  unfold tryDecodeJwt
  rw [jwtMatch_no_dot h]

theorem tryDecodeJwt_two_seg {a b : Text} (hane : a ≠ []) (hbne : b ≠ [])
    (ha : ∀ x ∈ a, isB64UrlChar x = true) (hb : ∀ x ∈ b, isB64UrlChar x = true) :
    tryDecodeJwt (a ++ 46 :: b) = none := by
  unfold tryDecodeJwt
  rw [jwtMatch_two_seg hane hbne ha hb]

/- ===== hex input at the Base64 step ===== -/

theorem asciiWs_jsWs {c : Nat} (h : isAsciiWs c = true) : isJsWs c = true := by
  simp [isAsciiWs] at h
  simp [isJsWs]
  omega

theorem hexDigit_not61 {c : Nat} (h : isHexDigit c = true) : ¬c = 61 := by
  unfold isHexDigit hexVal at h
  split_ifs at h <;> (try simp at h) <;> omega

theorem stripPad_no61 {d : Text} (h : ∀ c ∈ d, ¬c = 61) : stripPad d = d := by
  unfold stripPad
  split
  · rename_i c1 c2 r heq
    rw [if_neg (h c1 (by rw [← List.mem_reverse, heq]; simp))]
  · rename_i c1 heq
    rw [if_neg (h c1 (by rw [← List.mem_reverse, heq]; simp))]
  · rfl

theorem sextetsOf_mem : ∀ {d : Text} {is : List Nat}, sextetsOf d = some is →
    ∀ i ∈ is, ∃ c ∈ d, b64Idx c = some i := by
  intro d
  induction d with
  | nil =>
    intro is h i hi
    unfold sextetsOf at h
    rw [Option.some.injEq] at h
    rw [← h] at hi
    exact absurd hi (by simp)
  | cons c r ih =>
    intro is h i hi
    unfold sextetsOf at h
    cases hbi : b64Idx c with
    | none =>
      simp only [hbi] at h
      exact Option.noConfusion h
    | some j =>
      cases hs : sextetsOf r with
      | none =>
        simp only [hbi, hs] at h
        exact Option.noConfusion h
      | some js =>
        simp only [hbi, hs, Option.some.injEq] at h
        rw [← h] at hi
        rcases List.mem_cons.mp hi with hij | hijs
        · exact ⟨c, by simp, by rw [hbi, hij]⟩
        · obtain ⟨c2, hc2, hb2⟩ := ih hs i hijs
          exact ⟨c2, by simp [hc2], hb2⟩

theorem b64Idx_lt64 {c i : Nat} (h : b64Idx c = some i) : i < 64 := by
  unfold b64Idx at h
  split_ifs at h <;> (try simp at h) <;> omega

/-- The sextet of a hexadecimal digit is never 7 (the index of the
letter H, the only first character producing a leading byte 0x1F). -/
theorem b64Idx_hex_ne7 {c i : Nat} (hhex : isHexDigit c = true)
    (h : b64Idx c = some i) : ¬i = 7 := by
  unfold isHexDigit hexVal at hhex
  unfold b64Idx at h
  split_ifs at hhex <;> (try simp at hhex) <;> split_ifs at h <;>
    (try simp at h) <;> omega

theorem quanta_first {a b : Nat} (rest : List Nat) (ha : ¬a = 7) (hb : b < 64) :
    gzMagic (quanta (a :: b :: rest)) = false := by
  have hne : ¬(a * 4 + b / 16 = 31) := by omega
  cases rest with
  | nil => rfl
  | cons c r2 =>
    cases r2 with
    | nil =>
      show (decide (a * 4 + b / 16 = 31) && decide (b % 16 * 16 + c / 4 = 139)) = false
      simp [hne]
    | cons e r3 =>
      show (decide (a * 4 + b / 16 = 31) && decide (b % 16 * 16 + c / 4 = 139)) = false
      simp [hne]

/-- Base64-decoded bytes of an all-hexadecimal string never begin with
the gzip magic. -/
theorem gzMagic_hex {t : Text} {u8 : Bytes} (h : fromBase64 t = some u8)
    (hall : (stripWs t).all isHexDigit = true) : gzMagic u8 = false := by
  unfold fromBase64 atobDecode at h
  have hmem : ∀ c ∈ stripWs t, isHexDigit c = true := List.all_eq_true.mp hall
  have hfil : (stripWs t).filter (fun c => !isAsciiWs c) = stripWs t := by
    rw [List.filter_eq_self]
    intro c hc
    have hjs : isJsWs c = false := by
      unfold stripWs at hc
      have := (List.mem_filter.mp hc).2
      simpa using this
    simp only [Bool.not_eq_eq_eq_not, Bool.not_true]
    by_cases hA : isAsciiWs c = true
    · rw [asciiWs_jsWs hA] at hjs
      exact absurd hjs (by simp)
    · simpa using hA
  rw [hfil] at h
  have hpad : atobPad (stripWs t) = stripWs t := by
    unfold atobPad
    split
    · exact stripPad_no61 (fun c hc => hexDigit_not61 (hmem c hc))
    · rfl
  rw [hpad] at h
  split at h
  · exact Option.noConfusion h
  · cases hs : sextetsOf (stripWs t) with
    | none => rw [hs] at h; exact Option.noConfusion h
    | some is =>
      rw [hs] at h
      rw [Option.some.injEq] at h
      rw [← h]
      match is with
      | [] => rfl
      | [i] => rfl
      | i0 :: i1 :: rest =>
        obtain ⟨c0, hc0, hb0⟩ := sextetsOf_mem hs i0 (by simp)
        obtain ⟨c1, hc1, hb1⟩ := sextetsOf_mem hs i1 (by simp)
        exact quanta_first rest (b64Idx_hex_ne7 (hmem c0 hc0) hb0) (b64Idx_lt64 hb1)

/-- Inputs that Base64-decode without the gzip magic and are no JWT are
classified base64 by the cascade. -/
theorem smart_base64_of (G : GzipModel) {s : Text} {u8 : Bytes}
    (hj : tryDecodeJwt (trim s) = none) (hb : fromBase64 (trim s) = some u8)
    (hm : gzMagic u8 = false) :
    smart G s = some ⟨some .base64, utf8DecR u8⟩ := by
  have hgz : smartGz G (trim s) = none := by
    unfold smartGz
    rw [hb]
    simp only [hm]
    rfl
  unfold smart smartCore
  rw [hj]
  simp only [hgz]
  unfold attempt
  rw [hb]
  rfl

/- ===== the claims ===== -/

/-- C1 (corrected): the smart detector settles on every input whose
trimmed form is a well-formed UTF-16 string.  It is not total on
arbitrary inputs: a lone surrogate reaches the bare encodeURIComponent
pre-check of the URL step outside any try block, and the URIError
escapes to the caller. -/
theorem claim1_smart_total (G : GzipModel) {input : Text}
    (h : wfStr (trim input) = true) : (smart G input).isSome = true := by
  unfold smart smartCore
  cases hj : tryDecodeJwt (trim input) with
  | some j => simp only [hj]; rfl
  | none =>
    simp only [hj]
    cases hg : smartGz G (trim input) with
    | some r => simp only [hg]; rfl
    | none =>
      simp only [hg]
      exact attempt_isSome _ _ (attempt_isSome _ _ (attempt_isSome _ _
        (smartUrl_isSome h)))

theorem claim1_smart_total_witness :
    wfStr (trim [65]) = true ∧ (smart gzipId [65]).isSome = true :=
  ⟨by decide, claim1_smart_total gzipId (by decide)⟩

/-- A lone high surrogate escapes the cascade as an uncaught URIError:
smartDetect is not exception-free on every input text. -/
theorem claim1_lone_surrogate_cex : smart gzipId [55296] = none := by decide

/-- C2 (corrected): the JWT regex demands a second dot, so a two-segment
header.payload token never matches: tryDecodeJwt rejects it and the jwt
decode returns the failure message.  Only header.payload. with a
trailing dot, or a full three-segment token, can be accepted. -/
theorem claim2_jwt_two_segments (G : GzipModel) {a b : Text}
    (hane : a ≠ []) (hbne : b ≠ [])
    (ha : ∀ x ∈ a, isB64UrlChar x = true) (hb : ∀ x ∈ b, isB64UrlChar x = true) :
    tryDecodeJwt (a ++ 46 :: b) = none ∧
    decode G .jwt (a ++ 46 :: b) = some jwtFailMsg := by
  have hj := tryDecodeJwt_two_seg hane hbne ha hb
  refine ⟨hj, ?_⟩
  show some ((tryDecodeJwt (a ++ 46 :: b)).getD jwtFailMsg) = some jwtFailMsg
  rw [hj]
  rfl

theorem claim2_jwt_two_segments_witness :
    ([101, 121, 74, 104, 98, 71, 99, 105, 79, 105, 74, 73, 85, 122, 73, 49,
      78, 105, 74, 57] : Text) ≠ [] ∧
    ([101, 121, 74, 122, 100, 87, 73, 105, 79, 105, 73, 120, 73, 110, 48] : Text) ≠ [] ∧
    (∀ x ∈ ([101, 121, 74, 104, 98, 71, 99, 105, 79, 105, 74, 73, 85, 122, 73, 49,
      78, 105, 74, 57] : Text), isB64UrlChar x = true) ∧
    (∀ x ∈ ([101, 121, 74, 122, 100, 87, 73, 105, 79, 105, 73, 120, 73, 110, 48] :
      Text), isB64UrlChar x = true) ∧
    (tryDecodeJwt ([101, 121, 74, 104, 98, 71, 99, 105, 79, 105, 74, 73, 85, 122,
      73, 49, 78, 105, 74, 57] ++ 46 :: [101, 121, 74, 122, 100, 87, 73, 105, 79,
      105, 73, 120, 73, 110, 48]) = none ∧
    decode gzipId .jwt ([101, 121, 74, 104, 98, 71, 99, 105, 79, 105, 74, 73, 85,
      122, 73, 49, 78, 105, 74, 57] ++ 46 :: [101, 121, 74, 122, 100, 87, 73, 105,
      79, 105, 73, 120, 73, 110, 48]) = some jwtFailMsg) :=
  ⟨by decide, by decide, by decide, by decide,
    claim2_jwt_two_segments gzipId (by decide) (by decide) (by decide) (by decide)⟩

/-- The spec's own example (header with alg HS256, payload with sub 1,
both valid Base64URL JSON) is rejected in two-segment form and accepted
only with a trailing dot. -/
theorem claim2_jwt_one_dot_cex :
    tryDecodeJwt ([101, 121, 74, 104, 98, 71, 99, 105, 79, 105, 74, 73, 85, 122,
      73, 49, 78, 105, 74, 57] ++ 46 :: [101, 121, 74, 122, 100, 87, 73, 105, 79,
      105, 73, 120, 73, 110, 48]) = none ∧
    smart gzipId ([101, 121, 74, 104, 98, 71, 99, 105, 79, 105, 74, 73, 85, 122,
      73, 49, 78, 105, 74, 57] ++ 46 :: [101, 121, 74, 122, 100, 87, 73, 105, 79,
      105, 73, 120, 73, 110, 48] ++ [46]) =
      some ⟨some .jwt, [123, 34, 97, 108, 103, 34, 58, 34, 72, 83, 50, 53, 54, 34,
        125, 10, 123, 34, 115, 117, 98, 34, 58, 34, 49, 34, 125]⟩ := by
  refine ⟨by decide, by decide⟩

/-- C3 (corrected): the undetermined sentinel is unreachable, because the
ASCII-hex attempt before it is total: every settled cascade result
carries a codec.  A lone digit is classified ascii_hex, not
undetermined. -/
theorem claim3_smart_codec_some (G : GzipModel) {s : Text} {res : SmartResult}
    (h : smart G s = some res) : ¬res.codec = none := by
  unfold smart smartCore at h
  cases hj : tryDecodeJwt (trim s) with
  | some j =>
    simp only [hj, Option.some.injEq] at h
    rw [← h]
    simp
  | none =>
    simp only [hj] at h
    cases hg : smartGz G (trim s) with
    | some r =>
      simp only [hg, Option.some.injEq] at h
      rw [← h]
      exact smartGz_codec hg
    | none =>
      simp only [hg] at h
      exact attempt_codec h (fun x1 h1 => attempt_codec h1 (fun x2 h2 =>
        attempt_codec h2 (fun x3 h3 => smartUrl_codec h3)))

theorem claim3_smart_codec_some_witness :
    smart gzipId [53] = some ⟨some .ascii_hex, [5]⟩ ∧
    ¬(SmartResult.mk (some .ascii_hex) [5]).codec = none :=
  ⟨by decide, @claim3_smart_codec_some gzipId [53] ⟨some .ascii_hex, [5]⟩ (by decide)⟩

/-- The input of the claim, a lone digit with no ASCII letter, is
classified ascii_hex by the cascade, not returned as undetermined. -/
theorem claim3_digit_ascii_hex_cex :
    smart gzipId [53] = some ⟨some .ascii_hex, [5]⟩ ∧
    (∀ c ∈ ([53] : Text), isAsciiLetter c = false) := by
  refine ⟨by decide, by decide⟩

/-- C4 (corrected): every codec of the claim round-trips on nonempty
printable text whose code points stay in the basic plane; the astral
exclusion is needed because url_u, js_escape and ascii_hex truncate
supplementary code points, and nonemptiness because octal, binary and
ascii_hex reject the empty token list. -/
theorem claim4_roundtrip (G : GzipModel) {s : Text}
    (hp : printableStr s = true) (hne : s ≠ []) :
    (∀ c ∈ ([.url, .formurl, .base64, .base64url, .html, .hex, .octal, .binary,
        .gzip, .rot13] : List Method), RoundTrips G c s) ∧
    (bmpStr s = true →
      ∀ c ∈ ([.url_u, .js_escape, .ascii_hex] : List Method), RoundTrips G c s) := by
  have hwf : wfStr s = true := printableStr_wf hp
  constructor
  · intro c hc
    simp only [List.mem_cons, List.not_mem_nil, or_false] at hc
    rcases hc with rfl | rfl | rfl | rfl | rfl | rfl | rfl | rfl | rfl | rfl
    · obtain ⟨e, he, hd⟩ := decURIComp_encURIComp hwf
      exact ⟨e, he, hd⟩
    · obtain ⟨e, he, hd⟩ := formurl_dec_enc hwf
      exact ⟨e, he, hd⟩
    · refine ⟨toBase64 (utf8Enc s), rfl, ?_⟩
      show (fromBase64 (toBase64 (utf8Enc s))).map utf8DecR = some s
      rw [fromBase64_toBase64 (utf8Enc_lt256 hwf)]
      show some (utf8DecR (utf8Enc s)) = some s
      rw [utf8_roundtrip hwf]
    · refine ⟨toBase64Url (toBase64 (utf8Enc s)), rfl, ?_⟩
      show (fromBase64Url (toBase64Url (toBase64 (utf8Enc s)))).map utf8DecR = some s
      rw [fromBase64Url_toBase64Url (utf8Enc_lt256 hwf)]
      show some (utf8DecR (utf8Enc s)) = some s
      rw [utf8_roundtrip hwf]
    · refine ⟨htmlEncode s, rfl, ?_⟩
      show some (htmlDecode (htmlEncode s)) = some s
      rw [htmlDecode_htmlEncode]
    · refine ⟨hexEncode s, rfl, ?_⟩
      show (hexDecodeToU8 (hexEncode s)).map utf8DecR = some s
      unfold hexEncode
      rw [hexDecode_hexEncode (utf8Enc_lt256 hwf)]
      show some (utf8DecR (utf8Enc s)) = some s
      rw [utf8_roundtrip hwf]
    · refine ⟨octalEncode s, rfl, ?_⟩
      show (octalDecodeU8 (octalEncode s)).map utf8DecR = some s
      unfold octalEncode
      rw [octalDecode_encode (utf8Enc_ne_nil hne) (utf8Enc_lt256 hwf)]
      show some (utf8DecR (utf8Enc s)) = some s
      rw [utf8_roundtrip hwf]
    · refine ⟨binaryEncode s, rfl, ?_⟩
      show (binaryDecodeU8 (binaryEncode s)).map utf8DecR = some s
      unfold binaryEncode
      rw [binaryDecode_encode (utf8Enc_ne_nil hne) (utf8Enc_lt256 hwf)]
      show some (utf8DecR (utf8Enc s)) = some s
      rw [utf8_roundtrip hwf]
    · exact ⟨gzipCompressToBase64 G s, rfl, gzip_dec_enc G hwf⟩
    · refine ⟨rot13 s, rfl, ?_⟩
      show some (rot13 (rot13 s)) = some s
      rw [rot13_involution]
  · intro hbmp c hc
    obtain ⟨cps, hcs⟩ : ∃ cps, scalars s = some cps := Option.isSome_iff_exists.mp hwf
    obtain ⟨hid, hlt⟩ := scalars_bmp cps s hcs hbmp
    have hult : ∀ u ∈ s, u < 0x10000 := by
      intro u hu
      exact hlt u (by rw [hid]; exact hu)
    have hns : ∀ u ∈ s, ¬(0xD800 ≤ u ∧ u < 0xE000) := by
      intro u hu
      have := List.all_eq_true.mp hbmp u hu
      simp at this
      omega
    simp only [List.mem_cons, List.not_mem_nil, or_false] at hc
    rcases hc with rfl | rfl | rfl
    · refine ⟨urlUEncode s, rfl, ?_⟩
      show some (urlUDecode (urlUEncode s)) = some s
      rw [urlU_dec_enc hcs hlt]
    · refine ⟨jsEscape s, rfl, ?_⟩
      show some (jsUnescape (jsEscape s)) = some s
      unfold jsEscape jsUnescape
      rw [urlU_dec_enc hcs hlt]
    · refine ⟨asciiHexEncode s, rfl, ?_⟩
      show some (asciiHexDecode (asciiHexEncode s)) = some s
      rw [asciiHex_roundtrip hne hult hns]

theorem claim4_roundtrip_witness :
    printableStr [104, 105] = true ∧ ([104, 105] : Text) ≠ [] ∧
    RoundTrips gzipId .base64 [104, 105] ∧ bmpStr [104, 105] = true ∧
    RoundTrips gzipId .ascii_hex [104, 105] :=
  ⟨by decide, by decide,
    (claim4_roundtrip gzipId (by decide) (by decide)).1 .base64 (by decide),
    by decide,
    (claim4_roundtrip gzipId (by decide) (by decide)).2 (by decide) .ascii_hex
      (by decide)⟩

/-- A printable supplementary-plane text breaks the url_u round trip
(the percent-u escape holds only four hex digits), and the empty text
breaks the octal round trip (the empty token list is rejected):
the claim's unrestricted quantification fails. -/
theorem claim4_astral_empty_cex :
    (printableStr [55357, 56832] = true ∧
      ¬RoundTrips gzipId .url_u [55357, 56832]) ∧
    (printableStr [] = true ∧ ¬RoundTrips gzipId .octal []) := by
  refine ⟨⟨by decide, ?_⟩, ⟨by decide, ?_⟩⟩
  · rintro ⟨e, he, hd⟩
    rw [show encode gzipId .url_u [55357, 56832] =
      some (urlUEncode [55357, 56832]) from rfl, Option.some.injEq] at he
    rw [← he] at hd
    exact absurd hd (by decide)
  · rintro ⟨e, he, hd⟩
    rw [show encode gzipId .octal [] = some (octalEncode []) from rfl,
      Option.some.injEq] at he
    rw [← he] at hd
    exact absurd hd (by decide)

/-- C5 (corrected): the ascii_hex decode is total and never raises:
parseInt yields NaN on an empty or malformed token, the uint16 store
maps NaN to 0, and every token contributes one code unit. -/
theorem claim5_ascii_hex_total (G : GzipModel) (input : Text) :
    decode G .ascii_hex input = some (asciiHexDecode input) ∧
    (asciiHexDecode input).length = (splitWs (trim input)).length := by
  refine ⟨rfl, ?_⟩
  unfold asciiHexDecode
  rw [List.length_map]

/-- A token of two non-hex letters does not fail the ascii_hex decode:
it decodes to the NUL code unit. -/
theorem claim5_nonhex_token_cex :
    decode gzipId .ascii_hex [122, 122] = some [0] := by decide

/-- C6 (corrected): the Base64 step does not require UTF-8-decodable
bytes: the TextDecoder is non-fatal and substitutes U+FFFD, so every
strict Base64 decode without a JWT match or the gzip magic settles the
step. -/
theorem claim6_base64_step (G : GzipModel) {s : Text} {u8 : Bytes}
    (hj : tryDecodeJwt (trim s) = none) (hb : fromBase64 (trim s) = some u8)
    (hm : gzMagic u8 = false) :
    smart G s = some ⟨some .base64, utf8DecR u8⟩ :=
  smart_base64_of G hj hb hm

theorem claim6_base64_step_witness :
    tryDecodeJwt (trim [47, 119, 61, 61]) = none ∧
    fromBase64 (trim [47, 119, 61, 61]) = some [255] ∧
    gzMagic [255] = false ∧
    smart gzipId [47, 119, 61, 61] = some ⟨some .base64, utf8DecR [255]⟩ :=
  ⟨by decide, by decide, by decide,
    claim6_base64_step gzipId (by decide) (by decide) (by decide)⟩

/-- The Base64 text of the single byte 0xFF is not valid UTF-8, yet the
cascade still declares base64 and outputs the replacement character. -/
theorem claim6_invalid_utf8_cex :
    fromBase64 [47, 119, 61, 61] = some [255] ∧ utf8Valid [255] = false ∧
    smart gzipId [47, 119, 61, 61] = some ⟨some .base64, [65533]⟩ := by
  refine ⟨by decide, by decide, by decide⟩

/-- C7 (confirmed): an input that is simultaneously strict Base64 and
valid even-length hex is classified base64, never hex: hex digits
contain no dot (no JWT match) and never the letter H, the only first
character whose sextet starts a 0x1F byte, so the gzip magic test fails
and the Base64 step, which precedes the hex step, settles first. -/
theorem claim7_base64_before_hex (G : GzipModel) {s : Text} {u8 bs : Bytes}
    (hb : fromBase64 (trim s) = some u8) (hx : hexDecodeToU8 (trim s) = some bs) :
    smart G s = some ⟨some .base64, utf8DecR u8⟩ := by
  have hcond : (stripWs (trim s)).all isHexDigit = true ∧
      (stripWs (trim s)).length % 2 = 0 := by
    simp only [hexDecodeToU8] at hx
    split_ifs at hx with hcond
    exact hcond
  have hj : tryDecodeJwt (trim s) = none := by
    apply tryDecodeJwt_no_dot
    intro h46
    have hmem : (46 : Nat) ∈ stripWs (trim s) :=
      List.mem_filter.mpr ⟨h46, by decide⟩
    have := List.all_eq_true.mp hcond.1 _ hmem
    exact absurd this (by decide)
  exact smart_base64_of G hj hb (gzMagic_hex hb hcond.1)

theorem claim7_base64_before_hex_witness :
    fromBase64 (trim [100, 101, 97, 100, 98, 101, 101, 102]) =
      some [117, 230, 157, 109, 231, 159] ∧
    hexDecodeToU8 (trim [100, 101, 97, 100, 98, 101, 101, 102]) =
      some [222, 173, 190, 239] ∧
    smart gzipId [100, 101, 97, 100, 98, 101, 101, 102] =
      some ⟨some .base64, utf8DecR [117, 230, 157, 109, 231, 159]⟩ :=
  ⟨by decide, by decide,
    @claim7_base64_before_hex gzipId [100, 101, 97, 100, 98, 101, 101, 102]
      [117, 230, 157, 109, 231, 159] [222, 173, 190, 239] (by decide) (by decide)⟩

/-- C8 (confirmed): an empty or all-whitespace input trims to the empty
string, which Base64-decodes to no bytes: the cascade declares base64
with empty output instead of the undetermined result. -/
theorem claim8_ws_base64 (G : GzipModel) {s : Text}
    (h : ∀ c ∈ s, isJsWs c = true) :
    smart G s = some ⟨some .base64, []⟩ := by
  unfold smart
  rw [trim_ws_nil h]
  rfl

theorem claim8_ws_base64_witness :
    (∀ c ∈ ([32, 9, 10] : Text), isJsWs c = true) ∧
    smart gzipId [32, 9, 10] = some ⟨some .base64, []⟩ :=
  ⟨by decide, claim8_ws_base64 gzipId (by decide)⟩

/-- C9 (confirmed): the cascade operates only on the trimmed input and
trim is idempotent, so the smart detector is invariant under leading and
trailing whitespace. -/
theorem claim9_trim_invariant (G : GzipModel) (s : Text) :
    smart G (trim s) = smart G s := by
  unfold smart
  rw [trim_idem]

/-- C10 (corrected): the base64 and gzip decodes see only the
whitespace-stripped input, so whitespace anywhere in the input is
ignored by them; the claim fails for base64url, whose padding is
computed from the raw length before any whitespace is stripped. -/
theorem claim10_ws_strip (G : GzipModel) (s : Text) :
    decode G .base64 s = decode G .base64 (stripWs s) ∧
    decode G .gzip s = decode G .gzip (stripWs s) := by
  have hf : fromBase64 (stripWs s) = fromBase64 s := by
    unfold fromBase64
    rw [stripWs_idem]
  constructor
  · show (fromBase64 s).map utf8DecR = (fromBase64 (stripWs s)).map utf8DecR
    rw [hf]
  · show gzipDecompressFromBase64 G s = gzipDecompressFromBase64 G (stripWs s)
    unfold gzipDecompressFromBase64
    rw [hf]

/-- Appending one space to a valid Base64URL encoding changes its
padding computation and makes the decode fail: base64url is not
whitespace-insensitive. -/
theorem claim10_base64url_ws_cex :
    decode gzipId .base64url [81, 81] = some [65] ∧
    decode gzipId .base64url [81, 81, 32] = none := by
  refine ⟨by decide, by decide⟩

end NinjaCodec
